import Mathlib

/-!
GrrayCast: ray marching a 4D hypersphere (`src/main.cpp`).

A shallow embedding of the renderer.  The C++ `float` scalars are read as real
numbers with exact arithmetic (`ℝ`): `std::sqrt` is `Real.sqrt`, `std::asin` is
`Real.arcsin`, `std::atan2 y x` is the argument of `x + y i`, `M_PI` is `Real.pi`.
Rounding, NaN and infinities are outside this model, and so is the machine's
result of dividing by a zero length: wherever a theorem below normalises a
vector, the vector is shown to be non-zero.  `int` values are integers (`ℤ`),
the conversion `int(f)` truncates toward zero and `%` is the truncating
remainder.  Definitions that compare or divide real numbers, or take a square
root, cannot be evaluated by the compiler; concrete instances are evaluated by
rewriting instead (`rayDir_centre`, `shade_centre`, `rayMarch_corner`).

Where the rounding of the machine decides a property, the marcher is read a
second time in binary32 (namespace `F32`, evaluated by the kernel): this is the
case for the samples of `rayMarch` that may land inside the sphere.
-/

namespace GrrayCast

/-! ## Vec4 (`src/main.cpp` lines 7-18) -/

/-- Four float components, in the order the source declares them. -/
@[ext]
structure Vec4 where
  t : ℝ
  x : ℝ
  y : ℝ
  z : ℝ

namespace Vec4

/-- Source `operator+`. -/
def add (a v : Vec4) : Vec4 := ⟨a.t + v.t, a.x + v.x, a.y + v.y, a.z + v.z⟩

/-- Source `operator-`. -/
def sub (a v : Vec4) : Vec4 := ⟨a.t - v.t, a.x - v.x, a.y - v.y, a.z - v.z⟩

/-- Source `operator*` (vector times scalar). -/
def mul (a : Vec4) (s : ℝ) : Vec4 := ⟨a.t * s, a.x * s, a.y * s, a.z * s⟩

instance : Add Vec4 := ⟨Vec4.add⟩

instance : Sub Vec4 := ⟨Vec4.sub⟩

instance : HMul Vec4 ℝ Vec4 := ⟨Vec4.mul⟩

/-- Source `Vec4::normalize`: every component divided by the Euclidean length. -/
noncomputable def normalize (a : Vec4) : Vec4 :=
  let len := Real.sqrt (a.t * a.t + a.x * a.x + a.y * a.y + a.z * a.z)
  ⟨a.t / len, a.x / len, a.y / len, a.z / len⟩

/-- Source `Vec4::dot`. -/
def dot (a v : Vec4) : ℝ := a.t * v.t + a.x * v.x + a.y * v.y + a.z * v.z

end Vec4

/-- The magnitude the specification speaks of: `sqrt(dot(p, p))`.  The source
has no function of this name; it writes the square root out where needed. -/
noncomputable def magnitude (p : Vec4) : ℝ := Real.sqrt (p.dot p)

/-! ## Distance field and ray marcher (lines 21-36) -/

/-- Source `sphereSDF`. -/
noncomputable def sphereSDF (p : Vec4) (radius : ℝ) : ℝ :=
  Real.sqrt (p.t * p.t + p.x * p.x + p.y * p.y + p.z * p.z) - radius

/-- The `for` loop of `rayMarch`: the first argument is the number of
iterations still allowed, the second the running `depth`.  Leaving the loop by
`break` or by exhausting the counter both reach `return -1.0`. -/
noncomputable def rayMarchLoop (ro rd : Vec4) : ℕ → ℝ → ℝ
  | 0, _ => -1
  | n + 1, depth =>
    let p := ro + rd * depth
    let dist := sphereSDF p 1
    if dist < 0.001 then depth
    else
      let depth1 := depth + dist
      if depth1 > 100 then -1
      else rayMarchLoop ro rd n depth1

/-- Source `rayMarch`: at most 100 steps starting from depth 0. -/
noncomputable def rayMarch (ro rd : Vec4) : ℝ := rayMarchLoop ro rd 100 0

/-! ## Normal estimation (lines 39-47) -/

/-- Source `estimateNormal`: central differences of the field, normalised. -/
noncomputable def estimateNormal (p : Vec4) : Vec4 :=
  let eps : ℝ := 0.001
  let dt := sphereSDF ⟨p.t + eps, p.x, p.y, p.z⟩ 1 - sphereSDF ⟨p.t - eps, p.x, p.y, p.z⟩ 1
  let dx := sphereSDF ⟨p.t, p.x + eps, p.y, p.z⟩ 1 - sphereSDF ⟨p.t, p.x - eps, p.y, p.z⟩ 1
  let dy := sphereSDF ⟨p.t, p.x, p.y + eps, p.z⟩ 1 - sphereSDF ⟨p.t, p.x, p.y - eps, p.z⟩ 1
  let dz := sphereSDF ⟨p.t, p.x, p.y, p.z + eps⟩ 1 - sphereSDF ⟨p.t, p.x, p.y, p.z - eps⟩ 1
  let n : Vec4 := ⟨dt, dx, dy, dz⟩
  n.normalize

/-! ## The per-pixel body of `main` (lines 51-88) -/

/-- Source `width`. -/
def width : ℤ := 800

/-- Source `height`. -/
def height : ℤ := 600

/-- Source `cameraPos`. -/
def cameraPos : Vec4 := ⟨0, 0, 0, -5⟩

/-- The C++ conversion of a float to `int`: truncation toward zero. -/
noncomputable def toInt (f : ℝ) : ℤ := if 0 ≤ f then ⌊f⌋ else ⌈f⌉

/-- The C library `atan2(y, x)`: the angle of the point `(x, y)` in `(-π, π]`,
and 0 at the origin. -/
noncomputable def atan2 (y x : ℝ) : ℝ := Complex.arg ⟨x, y⟩

/-- Line 61: the ray direction of pixel `(x, y)`. -/
noncomputable def rayDir (x y : ℤ) : Vec4 :=
  let u : ℝ := ((x : ℝ) - (width : ℝ) / 2.0) / (height : ℝ)
  let v : ℝ := ((y : ℝ) - (height : ℝ) / 2.0) / (height : ℝ)
  (Vec4.mk 0 u v 1).normalize

/-- Line 71: the diffuse term. -/
noncomputable def diffuse (normal lightDir : Vec4) : ℝ := max 0 (normal.dot lightDir)

/-- Line 72: the ambient term. -/
noncomputable def ambient : ℝ := 0.15

/-- The multiplier of line 83: `std::min(1.0f, diffuse + ambient)`. -/
noncomputable def lighting (normal lightDir : Vec4) : ℝ :=
  min 1 (diffuse normal lightDir + ambient)

/-- Lines 79-82 as a function of the two texture coordinates: the base colour
picked by the checker index. -/
noncomputable def baseColor (sphere_u sphere_v : ℝ) : ℤ :=
  let N : ℤ := 8
  let checker : ℤ := (toInt (sphere_u * (N : ℝ)) + toInt (sphere_v * (N : ℝ))).tmod 2
  if checker ≠ 0 then 220 else 40

/-- Lines 65-83: the colour of a pixel whose ray hit at distance `dist`. -/
noncomputable def shade (rayDir : Vec4) (dist : ℝ) : ℤ :=
  let hitPoint := cameraPos + rayDir * dist
  let normal := estimateNormal hitPoint
  let lightDir := (cameraPos - hitPoint).normalize
  let r := Real.sqrt (hitPoint.x * hitPoint.x + hitPoint.y * hitPoint.y + hitPoint.z * hitPoint.z)
  let sphere_u := 0.5 + atan2 hitPoint.y hitPoint.x / (2.0 * Real.pi)
  let sphere_v := 0.5 - Real.arcsin (hitPoint.z / r) / Real.pi
  toInt ((baseColor sphere_u sphere_v : ℝ) * lighting normal lightDir)

/-- Lines 59-87: the text line written for pixel `(x, y)`. -/
noncomputable def pixelLine (x y : ℤ) : String :=
  let dist := rayMarch cameraPos (rayDir x y)
  if dist > 0 then
    let color := shade (rayDir x y) dist
    toString color ++ " " ++ toString color ++ " " ++ toString color ++ "\n"
  else
    "0 0 0\n"

/-- The three channel values written for pixel `(x, y)` (lines 84 and 86). -/
noncomputable def pixelChannels (x y : ℤ) : ℤ × ℤ × ℤ :=
  let dist := rayMarch cameraPos (rayDir x y)
  if dist > 0 then
    let color := shade (rayDir x y) dist
    (color, color, color)
  else
    (0, 0, 0)

/-- The text of one pixel line: three decimal integers separated by blanks. -/
def tripletLine (c : ℤ × ℤ × ℤ) : String :=
  toString c.1 ++ " " ++ toString c.2.1 ++ " " ++ toString c.2.2 ++ "\n"

/-- Line 53: the header written before the pixel loop. -/
def header : String := "P3\n" ++ toString width ++ " " ++ toString height ++ "\n255\n"

/-- Lines 58-88, the inner loop: the lines of row `y`, for `x = 0, ..., width - 1`. -/
noncomputable def rowLines (y : ℕ) : List String :=
  (List.range width.toNat).map fun (x : ℕ) => pixelLine (x : ℤ) (y : ℤ)

/-- Lines 57-89, the outer loop: the rows for `y = 0, ..., height - 1`, one after
the other. -/
noncomputable def pixelLines : List String :=
  ((List.range height.toNat).map rowLines).flatten

/-- Everything written to `output.ppm`. -/
noncomputable def imageText : String := header ++ String.join pixelLines

/-! ## Parts of the source functions, named so that claims can speak of them -/

/-- The depths at which `rayMarch` samples the field, in order: the values
`depth` takes at line 29 in the iterations the loop runs through. -/
noncomputable def rayMarchSamples (ro rd : Vec4) : ℕ → ℝ → List ℝ
  | 0, _ => []
  | n + 1, depth =>
    let p := ro + rd * depth
    let dist := sphereSDF p 1
    if dist < 0.001 then [depth]
    else
      let depth1 := depth + dist
      if depth1 > 100 then [depth]
      else depth :: rayMarchSamples ro rd n depth1

/-- The vector `n` of `estimateNormal` (line 45), before it is normalised. -/
noncomputable def gradient (p : Vec4) : Vec4 :=
  let eps : ℝ := 0.001
  let dt := sphereSDF ⟨p.t + eps, p.x, p.y, p.z⟩ 1 - sphereSDF ⟨p.t - eps, p.x, p.y, p.z⟩ 1
  let dx := sphereSDF ⟨p.t, p.x + eps, p.y, p.z⟩ 1 - sphereSDF ⟨p.t, p.x - eps, p.y, p.z⟩ 1
  let dy := sphereSDF ⟨p.t, p.x, p.y + eps, p.z⟩ 1 - sphereSDF ⟨p.t, p.x, p.y - eps, p.z⟩ 1
  let dz := sphereSDF ⟨p.t, p.x, p.y, p.z + eps⟩ 1 - sphereSDF ⟨p.t, p.x, p.y, p.z - eps⟩ 1
  ⟨dt, dx, dy, dz⟩

/-- The vector `(0, u, v, 1)` of line 61, before it is normalised. -/
noncomputable def rayVector (x y : ℤ) : Vec4 :=
  let u : ℝ := ((x : ℝ) - (width : ℝ) / 2.0) / (height : ℝ)
  let v : ℝ := ((y : ℝ) - (height : ℝ) / 2.0) / (height : ℝ)
  Vec4.mk 0 u v 1

/-- Line 76: the 3D radius `r` of a hit point. -/
noncomputable def radius3 (hitPoint : Vec4) : ℝ :=
  Real.sqrt (hitPoint.x * hitPoint.x + hitPoint.y * hitPoint.y + hitPoint.z * hitPoint.z)

/-- Line 77: the texture coordinate `sphere_u` of a hit point. -/
noncomputable def sphere_u (hitPoint : Vec4) : ℝ :=
  0.5 + atan2 hitPoint.y hitPoint.x / (2.0 * Real.pi)

/-- Line 78: the texture coordinate `sphere_v` of a hit point. -/
noncomputable def sphere_v (hitPoint : Vec4) : ℝ :=
  0.5 - Real.arcsin (hitPoint.z / radius3 hitPoint) / Real.pi

/-! ## Vocabulary of the claims -/

/-- The checker colour as the specification words it: with tile count 8, the
index `(floor(u·8) + floor(v·8)) mod 2` picks 40 when even and 220 when odd. -/
noncomputable def specBaseColor (u v : ℝ) : ℤ :=
  if (⌊u * 8⌋ + ⌊v * 8⌋) % 2 = 0 then 40 else 220


/-- The direction `normalize(-o)`: from `o` straight at the sphere centre. -/
noncomputable def towardCentre (o : Vec4) : Vec4 :=
  Vec4.normalize ⟨-o.t, -o.x, -o.y, -o.z⟩

/-- The direction `normalize(o)`: from `o` straight away from the sphere centre. -/
noncomputable def awayFromCentre (o : Vec4) : Vec4 := o.normalize

/-- The point lies on a coordinate axis: at most one component is non-zero. -/
def OnAxis (p : Vec4) : Prop :=
  (p.x = 0 ∧ p.y = 0 ∧ p.z = 0) ∨ (p.t = 0 ∧ p.y = 0 ∧ p.z = 0) ∨
    (p.t = 0 ∧ p.x = 0 ∧ p.z = 0) ∨ (p.t = 0 ∧ p.x = 0 ∧ p.y = 0)

/-! ## A second reading of the scalars: binary32 with rounding

The definitions above read `float` as exact reals.  The namespace `F32` reads
lines 10-34 once more with every `float` operation rounded to the nearest
binary32 value, a tie going to the even significand, as the machine does in
its default mode when each operation is carried out in single precision.
Values are the rationals the floats stand for.  Infinities, NaN and results
beyond the largest finite binary32 value are outside this reading as well. -/

namespace F32

/-- The position of the leading binary digit of `n ≥ 1` (0 for `n ≤ 1`), found
by halving; the first argument bounds the number of halvings. -/
def log2Loop : ℕ → ℕ → ℕ
  | 0, _ => 0
  | fuel + 1, n => if 2 ≤ n then log2Loop fuel (n / 2) + 1 else 0

/-- For `q ≠ 0`, the binary exponent of `q`: the `e` with
`2 ^ e ≤ |q| < 2 ^ (e + 1)`. -/
def binExp (q : ℚ) : ℤ :=
  let e0 : ℤ := (log2Loop q.num.natAbs q.num.natAbs : ℤ) - (log2Loop q.den q.den : ℤ)
  if (2 : ℚ) ^ e0 ≤ |q| then e0 else e0 - 1

/-- The nearest integer, a tie going to the even one. -/
def roundEven (q : ℚ) : ℤ :=
  let f : ℤ := ⌊q⌋
  let r : ℚ := q - f
  if r < 1 / 2 then f
  else if 1 / 2 < r then f + 1
  else if f % 2 = 0 then f else f + 1

/-- The binary32 value nearest to `q`: 24 significant binary digits, and a
spacing of `2 ^ (-149)` below `2 ^ (-126)`. -/
def round (q : ℚ) : ℚ :=
  if q = 0 then 0
  else
    let e : ℤ := max (binExp q) (-126)
    let ulp : ℚ := 2 ^ (e - 23)
    (roundEven (q / ulp) : ℚ) * ulp

/-- The integer square root, one binary digit at a time from the top one. -/
def isqrtLoop (n : ℕ) : ℕ → ℕ → ℕ
  | 0, r => r
  | b + 1, r => isqrtLoop n b (if (r + 2 ^ b) * (r + 2 ^ b) ≤ n then r + 2 ^ b else r)

/-- The largest `r` with `r * r ≤ n`. -/
def isqrt (n : ℕ) : ℕ := isqrtLoop n (log2Loop n n + 1) 0

/-- The binary32 value nearest to the square root of `x` (`std::sqrt` on a
float is correctly rounded): with `u` the spacing of the floats around the
root, the nearest multiple of `u` is `⌊(⌊√(4x/u²)⌋ + 1) / 2⌋ · u`.  The root of
0 is 0; a negative argument, where the machine gives NaN, is outside this
reading and does not occur below, `sumsq` being a rounded sum of squares. -/
def sqrt (x : ℚ) : ℚ :=
  if x ≤ 0 then 0
  else
    let e : ℤ := binExp x / 2
    let ulp : ℚ := 2 ^ (e - 23)
    let n : ℕ := ⌊4 * x / (ulp * ulp)⌋.toNat
    ((((isqrt n + 1) / 2 : ℕ) : ℤ) : ℚ) * ulp

/-- Source `Vec4`, the components being binary32 values. -/
structure Vec4 where
  t : ℚ
  x : ℚ
  y : ℚ
  z : ℚ

/-- Source `operator+`, each sum rounded. -/
def Vec4.add (a v : Vec4) : Vec4 :=
  ⟨round (a.t + v.t), round (a.x + v.x), round (a.y + v.y), round (a.z + v.z)⟩

/-- Source `operator*`, each product rounded. -/
def Vec4.mul (a : Vec4) (s : ℚ) : Vec4 :=
  ⟨round (a.t * s), round (a.x * s), round (a.y * s), round (a.z * s)⟩

instance : Add Vec4 := ⟨Vec4.add⟩

instance : HMul Vec4 ℚ Vec4 := ⟨Vec4.mul⟩

/-- The expression `t * t + x * x + y * y + z * z` of lines 14 and 22: four
rounded products, added from the left with each sum rounded. -/
def sumsq (p : Vec4) : ℚ :=
  round (round (round (round (p.t * p.t) + round (p.x * p.x)) + round (p.y * p.y)) +
    round (p.z * p.z))

/-- The `len` of `Vec4::normalize` (line 14). -/
def len (a : Vec4) : ℚ := sqrt (sumsq a)

/-- Source `Vec4::normalize`, each quotient rounded. -/
def Vec4.normalize (a : Vec4) : Vec4 :=
  ⟨round (a.t / len a), round (a.x / len a), round (a.y / len a), round (a.z / len a)⟩

/-- Source `sphereSDF`. -/
def sphereSDF (p : Vec4) (radius : ℚ) : ℚ := round (sqrt (sumsq p) - radius)

/-- The constant `0.001` of line 31.  It is a `double`, the float `dist` is
compared with it exactly: the binary64 value nearest to one thousandth. -/
def hitEpsilon : ℚ := 1152921504606847 / 1152921504606846976

/-- The loop of `rayMarch` as in `rayMarchLoop`, the operations rounded. -/
def rayMarchLoop (ro rd : Vec4) : ℕ → ℚ → ℚ
  | 0, _ => -1
  | n + 1, depth =>
    let p := ro + rd * depth
    let dist := sphereSDF p 1
    if dist < hitEpsilon then depth
    else
      let depth1 := round (depth + dist)
      if depth1 > 100 then -1
      else rayMarchLoop ro rd n depth1

/-- Source `rayMarch`. -/
def rayMarch (ro rd : Vec4) : ℚ := rayMarchLoop ro rd 100 0

/-- The depths sampled by `rayMarch`, as in `rayMarchSamples` above, the
operations rounded. -/
def rayMarchSamples (ro rd : Vec4) : ℕ → ℚ → List ℚ
  | 0, _ => []
  | n + 1, depth =>
    let p := ro + rd * depth
    let dist := sphereSDF p 1
    if dist < hitEpsilon then [depth]
    else
      let depth1 := round (depth + dist)
      if depth1 > 100 then [depth]
      else depth :: rayMarchSamples ro rd n depth1

end F32

/-! ## Elementary facts about the vector operations -/

@[simp] theorem Vec4.add_def (a v : Vec4) :
    a + v = ⟨a.t + v.t, a.x + v.x, a.y + v.y, a.z + v.z⟩ := rfl

@[simp] theorem Vec4.sub_def (a v : Vec4) :
    a - v = ⟨a.t - v.t, a.x - v.x, a.y - v.y, a.z - v.z⟩ := rfl

@[simp] theorem Vec4.mul_def (a : Vec4) (s : ℝ) :
    a * s = ⟨a.t * s, a.x * s, a.y * s, a.z * s⟩ := rfl

/-! ## C1: the result of `rayMarch` -/

/-- Loop invariant behind C1: started at a depth in `[0, 100]`, the loop yields
the sentinel or a depth in `[0, 100]`. -/
theorem rayMarchLoop_range (ro rd : Vec4) (n : ℕ) :
    ∀ depth : ℝ, 0 ≤ depth → depth ≤ 100 →
      rayMarchLoop ro rd n depth = -1 ∨
        (0 ≤ rayMarchLoop ro rd n depth ∧ rayMarchLoop ro rd n depth ≤ 100) := by
  induction n with
  | zero => intro depth _ _; left; rfl
  | succ k ih =>
    intro depth h0 h100
    simp only [rayMarchLoop]
    split_ifs with hhit hfar
    · right; exact ⟨h0, h100⟩
    · left; trivial
    · apply ih
      · have : (0.001 : ℝ) ≤ sphereSDF (ro + rd * depth) 1 := not_lt.mp hhit
        have h1 : (0 : ℝ) < 0.001 := by norm_num
        linarith
      · exact not_lt.mp hfar

/-- C1: for every origin and direction, `rayMarch` returns the no-hit sentinel
`-1` or a hit distance `d` with `0 ≤ d ≤ 100`. -/
theorem rayMarch_sentinel_or_range (ro rd : Vec4) :
    rayMarch ro rd = -1 ∨ (0 ≤ rayMarch ro rd ∧ rayMarch ro rd ≤ 100) :=
  rayMarchLoop_range ro rd 100 0 le_rfl (by norm_num)

/-! ## Stepping the loop -/

theorem rayMarchLoop_hit (ro rd : Vec4) (n : ℕ) (depth : ℝ)
    (h : sphereSDF (ro + rd * depth) 1 < 0.001) :
    rayMarchLoop ro rd (n + 1) depth = depth := by
  simp only [rayMarchLoop, if_pos h]

theorem rayMarchLoop_far (ro rd : Vec4) (n : ℕ) (depth : ℝ)
    (h : ¬ sphereSDF (ro + rd * depth) 1 < 0.001)
    (hfar : depth + sphereSDF (ro + rd * depth) 1 > 100) :
    rayMarchLoop ro rd (n + 1) depth = -1 := by
  simp only [rayMarchLoop, if_neg h, if_pos hfar]

theorem rayMarchLoop_step (ro rd : Vec4) (n : ℕ) (depth : ℝ)
    (h : ¬ sphereSDF (ro + rd * depth) 1 < 0.001)
    (hfar : ¬ depth + sphereSDF (ro + rd * depth) 1 > 100) :
    rayMarchLoop ro rd (n + 1) depth =
      rayMarchLoop ro rd n (depth + sphereSDF (ro + rd * depth) 1) := by
  simp only [rayMarchLoop, if_neg h, if_neg hfar]

/-- A ray none of whose points at depth `≥ 0` comes within the hit threshold
is reported as a miss. -/
theorem rayMarchLoop_miss (ro rd : Vec4)
    (hclear : ∀ d : ℝ, 0 ≤ d → 0.001 ≤ sphereSDF (ro + rd * d) 1) (n : ℕ) :
    ∀ depth : ℝ, 0 ≤ depth → rayMarchLoop ro rd n depth = -1 := by
  induction n with
  | zero => intro depth _; rfl
  | succ k ih =>
    intro depth hd
    have hge := hclear depth hd
    have hno : ¬ sphereSDF (ro + rd * depth) 1 < 0.001 := not_lt.mpr hge
    by_cases hfar : depth + sphereSDF (ro + rd * depth) 1 > 100
    · exact rayMarchLoop_far ro rd k depth hno hfar
    · rw [rayMarchLoop_step ro rd k depth hno hfar]
      apply ih
      have h001 : (0 : ℝ) < 0.001 := by norm_num
      linarith

/-! ## Magnitudes -/

theorem magnitude_eq (p : Vec4) :
    magnitude p = Real.sqrt (p.t * p.t + p.x * p.x + p.y * p.y + p.z * p.z) := rfl

theorem magnitude_nonneg (p : Vec4) : 0 ≤ magnitude p := Real.sqrt_nonneg _

theorem sumsq_nonneg (p : Vec4) : 0 ≤ p.t * p.t + p.x * p.x + p.y * p.y + p.z * p.z := by
  linarith [mul_self_nonneg p.t, mul_self_nonneg p.x, mul_self_nonneg p.y, mul_self_nonneg p.z]

theorem magnitude_sq (p : Vec4) :
    magnitude p * magnitude p = p.t * p.t + p.x * p.x + p.y * p.y + p.z * p.z := by
  rw [magnitude_eq]; exact Real.mul_self_sqrt (sumsq_nonneg p)

/-- The field along the line through the centre and `o`: at `k · o` it is
`|k| · magnitude o - radius`. -/
theorem sphereSDF_scaled (o : Vec4) (k r : ℝ) :
    sphereSDF ⟨o.t * k, o.x * k, o.y * k, o.z * k⟩ r = |k| * magnitude o - r := by
  unfold sphereSDF
  have h : o.t * k * (o.t * k) + o.x * k * (o.x * k) + o.y * k * (o.y * k) + o.z * k * (o.z * k)
      = (|k| * magnitude o) * (|k| * magnitude o) := by
    have := magnitude_sq o
    have hk : |k| * |k| = k * k := abs_mul_abs_self k
    calc o.t * k * (o.t * k) + o.x * k * (o.x * k) + o.y * k * (o.y * k) + o.z * k * (o.z * k)
        = (k * k) * (o.t * o.t + o.x * o.x + o.y * o.y + o.z * o.z) := by ring
      _ = (|k| * |k|) * (magnitude o * magnitude o) := by rw [hk, this]
      _ = (|k| * magnitude o) * (|k| * magnitude o) := by ring
  rw [h, Real.sqrt_mul_self (mul_nonneg (abs_nonneg k) (magnitude_nonneg o))]

/-- Points of the ray from `o` toward the centre. -/
theorem toward_point (o : Vec4) (d : ℝ) (hm : 0 < magnitude o) :
    o + towardCentre o * d =
      ⟨o.t * (1 - d / magnitude o), o.x * (1 - d / magnitude o),
        o.y * (1 - d / magnitude o), o.z * (1 - d / magnitude o)⟩ := by
  have hne : magnitude o ≠ 0 := ne_of_gt hm
  have hlen : Real.sqrt (-o.t * -o.t + -o.x * -o.x + -o.y * -o.y + -o.z * -o.z) = magnitude o := by
    rw [magnitude_eq]; congr 1; ring
  simp only [towardCentre, Vec4.normalize, hlen, Vec4.add_def, Vec4.mul_def]
  ext <;> simp only <;> field_simp <;> ring

/-- Points of the ray from `o` away from the centre. -/
theorem away_point (o : Vec4) (d : ℝ) (hm : 0 < magnitude o) :
    o + awayFromCentre o * d =
      ⟨o.t * (1 + d / magnitude o), o.x * (1 + d / magnitude o),
        o.y * (1 + d / magnitude o), o.z * (1 + d / magnitude o)⟩ := by
  have hne : magnitude o ≠ 0 := ne_of_gt hm
  simp only [awayFromCentre, Vec4.normalize, ← magnitude_eq, Vec4.add_def, Vec4.mul_def]
  ext <;> simp only <;> field_simp <;> ring

/-- The field on the ray toward the centre. -/
theorem sphereSDF_toward (o : Vec4) (d : ℝ) (hm : 0 < magnitude o) :
    sphereSDF (o + towardCentre o * d) 1 = |magnitude o - d| - 1 := by
  rw [toward_point o d hm, sphereSDF_scaled]
  have : |1 - d / magnitude o| * magnitude o = |magnitude o - d| := by
    rw [← abs_of_pos hm, ← abs_mul, abs_of_pos hm]
    congr 1; field_simp
  rw [this]

/-- The field on the ray away from the centre. -/
theorem sphereSDF_away (o : Vec4) (d : ℝ) (hm : 0 < magnitude o) (hd : 0 ≤ d) :
    sphereSDF (o + awayFromCentre o * d) 1 = magnitude o + d - 1 := by
  rw [away_point o d hm, sphereSDF_scaled]
  have hpos : 0 ≤ 1 + d / magnitude o := by positivity
  rw [abs_of_nonneg hpos]; field_simp

theorem magnitude_axis_z (c : ℝ) : magnitude ⟨0, 0, 0, c⟩ = |c| := by
  rw [magnitude_eq]
  have : (0 : ℝ) * 0 + 0 * 0 + 0 * 0 + c * c = |c| * |c| := by
    rw [abs_mul_abs_self]; ring
  simp only [this]
  exact Real.sqrt_mul_self (abs_nonneg c)

/-! ## C2: a ray aimed at the centre -/

/-- An origin already within the hit threshold: the first sample hits, depth 0. -/
theorem rayMarch_toward_near (o : Vec4) (hm : 0 < magnitude o)
    (hnear : magnitude o - 1 < 0.001) : rayMarch o (towardCentre o) = 0 := by
  show rayMarchLoop o (towardCentre o) (99 + 1) 0 = 0
  apply rayMarchLoop_hit
  rw [sphereSDF_toward o 0 hm, sub_zero, abs_of_pos hm]
  exact hnear

/-- An origin within the march range: one step lands on the surface. -/
theorem rayMarch_toward_value (o : Vec4) (hfar : ¬ magnitude o - 1 < 0.001)
    (hmax : magnitude o ≤ 101) : rayMarch o (towardCentre o) = magnitude o - 1 := by
  have h001 : (0 : ℝ) < 0.001 := by norm_num
  have hm : 0 < magnitude o := by linarith [not_lt.mp hfar]
  have hd0 : sphereSDF (o + towardCentre o * (0 : ℝ)) 1 = magnitude o - 1 := by
    rw [sphereSDF_toward o 0 hm, sub_zero, abs_of_pos hm]
  have hd1 : sphereSDF (o + towardCentre o * (0 + (magnitude o - 1))) 1 = 0 := by
    rw [sphereSDF_toward o _ hm]
    have : magnitude o - (0 + (magnitude o - 1)) = 1 := by ring
    rw [this, abs_one, sub_self]
  show rayMarchLoop o (towardCentre o) (99 + 1) 0 = magnitude o - 1
  rw [rayMarchLoop_step o _ 99 0 (by rw [hd0]; exact hfar)
    (by rw [hd0]; intro h; linarith), hd0]
  show rayMarchLoop o (towardCentre o) (98 + 1) (0 + (magnitude o - 1)) = magnitude o - 1
  rw [rayMarchLoop_hit o _ 98 _ (by rw [hd1]; exact h001), zero_add]

/-- An origin beyond the march range: the first step exceeds the maximum
distance and the loop is left without a hit. -/
theorem rayMarch_toward_beyond (o : Vec4) (hmax : 101 < magnitude o) :
    rayMarch o (towardCentre o) = -1 := by
  have hm : 0 < magnitude o := by linarith
  have hd0 : sphereSDF (o + towardCentre o * (0 : ℝ)) 1 = magnitude o - 1 := by
    rw [sphereSDF_toward o 0 hm, sub_zero, abs_of_pos hm]
  show rayMarchLoop o (towardCentre o) (99 + 1) 0 = -1
  apply rayMarchLoop_far
  · rw [hd0]; intro h; norm_num at h; linarith
  · rw [hd0]; linarith

/-- C2 as stated fails: from `(0, 0, 0, -102)`, outside the unit sphere and aimed
at the centre, the first step is 101 > 100 and `rayMarch` returns the sentinel. -/
theorem rayMarch_toward_centre_far_is_miss :
    1 < magnitude ⟨0, 0, 0, -102⟩ ∧
      rayMarch ⟨0, 0, 0, -102⟩ (towardCentre ⟨0, 0, 0, -102⟩) = -1 := by
  have h : magnitude ⟨0, 0, 0, -102⟩ = 102 := by
    rw [magnitude_axis_z]; norm_num
  exact ⟨by rw [h]; norm_num, rayMarch_toward_beyond _ (by rw [h]; norm_num)⟩

/-- C2 (amended): for an origin outside the unit sphere and at most 101 from the
centre, the ray aimed at the centre hits, at a distance `d ≥ 0` with
`|d - (magnitude o - 1)| < 0.001`. -/
theorem rayMarch_toward_centre_hits (o : Vec4) (hout : 1 < magnitude o)
    (hmax : magnitude o ≤ 101) :
    rayMarch o (towardCentre o) ≠ -1 ∧ 0 ≤ rayMarch o (towardCentre o) ∧
      |rayMarch o (towardCentre o) - (magnitude o - 1)| < 0.001 := by
  have h001 : (0 : ℝ) < 0.001 := by norm_num
  by_cases hnear : magnitude o - 1 < 0.001
  · rw [rayMarch_toward_near o (by linarith) hnear]
    refine ⟨by norm_num, le_rfl, ?_⟩
    rw [zero_sub, abs_neg, abs_of_pos (by linarith)]
    exact hnear
  · rw [rayMarch_toward_value o hnear hmax]
    refine ⟨by intro h; linarith, by linarith, ?_⟩
    rw [sub_self, abs_zero]; exact h001

/-- Witness of the amended C2 at the camera position `(0, 0, 0, -5)`. -/
theorem rayMarch_toward_centre_hits_witness :
    1 < magnitude ⟨0, 0, 0, -5⟩ ∧ magnitude ⟨0, 0, 0, -5⟩ ≤ 101 ∧
      (rayMarch ⟨0, 0, 0, -5⟩ (towardCentre ⟨0, 0, 0, -5⟩) ≠ -1 ∧
        0 ≤ rayMarch ⟨0, 0, 0, -5⟩ (towardCentre ⟨0, 0, 0, -5⟩) ∧
        |rayMarch ⟨0, 0, 0, -5⟩ (towardCentre ⟨0, 0, 0, -5⟩) - (magnitude ⟨0, 0, 0, -5⟩ - 1)|
          < 0.001) := by
  have h : magnitude ⟨0, 0, 0, -5⟩ = 5 := by
    rw [magnitude_axis_z]; norm_num
  have h1 : 1 < magnitude ⟨0, 0, 0, -5⟩ := by rw [h]; norm_num
  have h2 : magnitude ⟨0, 0, 0, -5⟩ ≤ 101 := by rw [h]; norm_num
  exact ⟨h1, h2, rayMarch_toward_centre_hits ⟨0, 0, 0, -5⟩ h1 h2⟩

/-! ## C3: a ray aimed away from the centre -/

/-- On the outward ray from an origin at least 1.001 from the centre, no
sample at depth `≥ 0` is within the hit threshold. -/
theorem away_ray_clear (o : Vec4) (hout : 1.001 ≤ magnitude o) (d : ℝ) (hd : 0 ≤ d) :
    0.001 ≤ sphereSDF (o + awayFromCentre o * d) 1 := by
  have h1 : (1.001 : ℝ) = 1 + 0.001 := by norm_num
  have h2 : (0 : ℝ) < 0.001 := by norm_num
  rw [sphereSDF_away o d (by linarith) hd]
  linarith

/-- C3 as stated fails: the origin `(0, 0, 0, 2049/2048)` is outside the unit
sphere, but its first sample is `1/2048 < 0.001` from the surface, so the ray
aimed away from the sphere reports a hit at depth 0. -/
theorem rayMarch_away_near_is_hit :
    1 < magnitude ⟨0, 0, 0, 2049 / 2048⟩ ∧
      rayMarch ⟨0, 0, 0, 2049 / 2048⟩ (awayFromCentre ⟨0, 0, 0, 2049 / 2048⟩) = 0 ∧
      rayMarch ⟨0, 0, 0, 2049 / 2048⟩ (awayFromCentre ⟨0, 0, 0, 2049 / 2048⟩) ≠ -1 := by
  have h : magnitude ⟨0, 0, 0, 2049 / 2048⟩ = 2049 / 2048 := by
    rw [magnitude_axis_z]; norm_num
  have h0 : rayMarch ⟨0, 0, 0, 2049 / 2048⟩ (awayFromCentre ⟨0, 0, 0, 2049 / 2048⟩) = 0 := by
    show rayMarchLoop _ _ (99 + 1) 0 = 0
    apply rayMarchLoop_hit
    rw [sphereSDF_away _ 0 (by rw [h]; norm_num) le_rfl, h]
    norm_num
  exact ⟨by rw [h]; norm_num, h0, by rw [h0]; norm_num⟩

/-- C3 (amended): for an origin at least 1.001 from the centre (outside the
sphere by the hit threshold or more), the ray aimed directly away from the
sphere returns the no-hit sentinel. -/
theorem rayMarch_away_is_miss (o : Vec4) (hout : 1.001 ≤ magnitude o) :
    rayMarch o (awayFromCentre o) = -1 :=
  rayMarchLoop_miss o _ (away_ray_clear o hout) 100 0 le_rfl

/-- Witness of the amended C3 at the camera position `(0, 0, 0, -5)`. -/
theorem rayMarch_away_is_miss_witness :
    1.001 ≤ magnitude ⟨0, 0, 0, -5⟩ ∧
      rayMarch ⟨0, 0, 0, -5⟩ (awayFromCentre ⟨0, 0, 0, -5⟩) = -1 := by
  have h : (1.001 : ℝ) ≤ magnitude ⟨0, 0, 0, -5⟩ := by
    rw [magnitude_axis_z]; norm_num
  exact ⟨h, rayMarch_away_is_miss ⟨0, 0, 0, -5⟩ h⟩

/-! ## C4: the distance field -/

/-- C4: `sphereSDF p r = magnitude p - r`; it is zero exactly when
`magnitude p = r`, negative exactly when `magnitude p < r`, positive exactly
when `magnitude p > r`. -/
theorem sphereSDF_sign (p : Vec4) (r : ℝ) :
    sphereSDF p r = magnitude p - r ∧
      (sphereSDF p r = 0 ↔ magnitude p = r) ∧
      (sphereSDF p r < 0 ↔ magnitude p < r) ∧
      (0 < sphereSDF p r ↔ r < magnitude p) := by
  have h : sphereSDF p r = magnitude p - r := rfl
  refine ⟨h, ?_, ?_, ?_⟩
  · rw [h]; exact sub_eq_zero
  · rw [h]; exact sub_neg
  · rw [h]; exact sub_pos

/-! ## C5: normalisation -/

theorem magnitude_pos_of_ne_zero (v : Vec4) (hv : v ≠ ⟨0, 0, 0, 0⟩) : 0 < magnitude v := by
  rw [magnitude_eq]
  apply Real.sqrt_pos.mpr
  by_contra hnot
  have hz : v.t * v.t + v.x * v.x + v.y * v.y + v.z * v.z = 0 :=
    le_antisymm (not_lt.mp hnot) (sumsq_nonneg v)
  have n1 := mul_self_nonneg v.t
  have n2 := mul_self_nonneg v.x
  have n3 := mul_self_nonneg v.y
  have n4 := mul_self_nonneg v.z
  apply hv
  ext
  · exact mul_self_eq_zero.mp (le_antisymm (by linarith) n1)
  · exact mul_self_eq_zero.mp (le_antisymm (by linarith) n2)
  · exact mul_self_eq_zero.mp (le_antisymm (by linarith) n3)
  · exact mul_self_eq_zero.mp (le_antisymm (by linarith) n4)

theorem normalize_eq_mul (v : Vec4) : v.normalize = v * (1 / magnitude v) := by
  simp only [Vec4.normalize, ← magnitude_eq, Vec4.mul_def]
  ext <;> exact div_eq_mul_one_div _ _

theorem magnitude_normalize (v : Vec4) (hm : 0 < magnitude v) :
    magnitude v.normalize = 1 := by
  rw [normalize_eq_mul, Vec4.mul_def, magnitude_eq]
  have := sphereSDF_scaled v (1 / magnitude v) 0
  unfold sphereSDF at this
  rw [sub_zero, sub_zero] at this
  rw [this, abs_of_pos (by positivity)]
  field_simp

/-- C5: for a non-zero vector, the normalised vector has magnitude exactly 1
and is a positive multiple of the vector. -/
theorem normalize_unit (v : Vec4) (hv : v ≠ ⟨0, 0, 0, 0⟩) :
    magnitude v.normalize = 1 ∧ ∃ c : ℝ, 0 < c ∧ v.normalize = v * c := by
  have hm := magnitude_pos_of_ne_zero v hv
  exact ⟨magnitude_normalize v hm, 1 / magnitude v, by positivity, normalize_eq_mul v⟩

/-- Witness of C5 at `(0, 3, 0, 4)`. -/
theorem normalize_unit_witness :
    (⟨0, 3, 0, 4⟩ : Vec4) ≠ ⟨0, 0, 0, 0⟩ ∧
      (magnitude (Vec4.normalize ⟨0, 3, 0, 4⟩) = 1 ∧
        ∃ c : ℝ, 0 < c ∧ Vec4.normalize ⟨0, 3, 0, 4⟩ = (⟨0, 3, 0, 4⟩ : Vec4) * c) := by
  have h : (⟨0, 3, 0, 4⟩ : Vec4) ≠ ⟨0, 0, 0, 0⟩ := by
    intro heq
    have := congrArg Vec4.x heq
    norm_num at this
  exact ⟨h, normalize_unit ⟨0, 3, 0, 4⟩ h⟩

/-! ## C6: the estimated normal on the unit sphere -/

/-- The central difference of the field along one axis, at a point of the unit
sphere whose coordinate on that axis is `c`: the two samples have squared
lengths `A = 1 + e² + 2ec` and `B = 1 + e² - 2ec`. -/
theorem diff_sqrt_bounds (e c A B : ℝ) (he : 0 < e) (he1 : e < 1) (hc : c * c ≤ 1)
    (hA : A = 1 + e * e + 2 * e * c) (hB : B = 1 + e * e - 2 * e * c) :
    4 * e * (c * c) ≤ (Real.sqrt A - Real.sqrt B) * c * (2 + e * e) ∧
      (Real.sqrt A - Real.sqrt B) * (Real.sqrt A - Real.sqrt B) ≤ 4 * (e * e) * (c * c) := by
  have habs : |c| ≤ 1 := abs_le_one_iff_mul_self_le_one.mpr hc
  have hc1 : c ≤ 1 := (abs_le.mp habs).2
  have hc2 : -1 ≤ c := (abs_le.mp habs).1
  have hec1 : e * c ≤ e := by
    have := mul_le_mul_of_nonneg_left hc1 he.le
    linarith
  have hec2 : -e ≤ e * c := by
    have := mul_le_mul_of_nonneg_left hc2 he.le
    linarith
  have hA0 : 0 ≤ A := by rw [hA]; linarith [mul_self_nonneg (1 - e)]
  have hB0 : 0 ≤ B := by rw [hB]; linarith [mul_self_nonneg (1 - e)]
  have hss : Real.sqrt A * Real.sqrt A = A := Real.mul_self_sqrt hA0
  have htt : Real.sqrt B * Real.sqrt B = B := Real.mul_self_sqrt hB0
  have hs0 : 0 ≤ Real.sqrt A := Real.sqrt_nonneg A
  have ht0 : 0 ≤ Real.sqrt B := Real.sqrt_nonneg B
  generalize Real.sqrt A = s at hss hs0 ⊢
  generalize Real.sqrt B = t at htt ht0 ⊢
  have hst0 : 0 ≤ s * t := mul_nonneg hs0 ht0
  have hprod : (1 - e * e) * (1 - e * e) ≤ (s * t) * (s * t) := by
    have h1 : (s * t) * (s * t) = A * B := by rw [← hss, ← htt]; ring
    rw [h1, hA, hB]
    nlinarith [mul_nonneg (mul_nonneg he.le he.le) (sub_nonneg.mpr hc)]
  have hst : 1 - e * e ≤ s * t :=
    (mul_self_le_mul_self_iff (by nlinarith) hst0).mpr hprod
  have hD0 : 0 ≤ s + t := add_nonneg hs0 ht0
  have hDsq : (s + t) * (s + t) = 2 * (1 + e * e) + 2 * (s * t) := by
    have : (s + t) * (s + t) = s * s + t * t + 2 * (s * t) := by ring
    rw [this, hss, htt, hA, hB]; ring
  have hD2 : 2 ≤ s + t := by
    apply (mul_self_le_mul_self_iff (by norm_num) hD0).mpr
    rw [hDsq]; linarith
  have hDup : s + t ≤ 2 + e * e := by
    apply (mul_self_le_mul_self_iff hD0 (by positivity)).mpr
    rw [hDsq]
    nlinarith [mul_self_nonneg (s - t), mul_self_nonneg (e * e)]
  have hgD : (s - t) * (s + t) = 4 * e * c := by
    have : (s - t) * (s + t) = s * s - t * t := by ring
    rw [this, hss, htt, hA, hB]; ring
  have hgc : 0 ≤ (s - t) * c := by
    have h1 : 0 ≤ ((s - t) * c) * (s + t) := by
      have : ((s - t) * c) * (s + t) = 4 * e * (c * c) := by
        calc ((s - t) * c) * (s + t) = ((s - t) * (s + t)) * c := by ring
          _ = 4 * e * (c * c) := by rw [hgD]; ring
      rw [this]
      exact mul_nonneg (by linarith) (mul_self_nonneg c)
    by_contra hneg
    have hneg1 : (s - t) * c < 0 := not_le.mp hneg
    have hneg2 : ((s - t) * c) * (s + t) < 0 := mul_neg_of_neg_of_pos hneg1 (by linarith)
    linarith
  constructor
  · calc 4 * e * (c * c) = ((s - t) * (s + t)) * c := by rw [hgD]; ring
      _ = ((s - t) * c) * (s + t) := by ring
      _ ≤ ((s - t) * c) * (2 + e * e) := mul_le_mul_of_nonneg_left hDup hgc
  · have h16 : ((s - t) * (s - t)) * ((s + t) * (s + t)) = 16 * (e * e) * (c * c) := by
      calc ((s - t) * (s - t)) * ((s + t) * (s + t))
          = ((s - t) * (s + t)) * ((s - t) * (s + t)) := by ring
        _ = 16 * (e * e) * (c * c) := by rw [hgD]; ring
    have h4 : (4 : ℝ) ≤ (s + t) * (s + t) := by nlinarith
    nlinarith [mul_self_nonneg (s - t)]

/-- The central difference is exactly `2ec` for a coordinate that is 0 or ±1. -/
theorem diff_sqrt_axis (e c A B : ℝ) (he : 0 < e) (he1 : e < 1) (hc : c = 0 ∨ c * c = 1)
    (hA : A = 1 + e * e + 2 * e * c) (hB : B = 1 + e * e - 2 * e * c) :
    Real.sqrt A - Real.sqrt B = c * (2 * e) := by
  rcases hc with h0 | h1
  · rw [hA, hB, h0]; simp
  · have habs : |c| ≤ 1 := abs_le_one_iff_mul_self_le_one.mpr h1.le
    have hc1 : c ≤ 1 := (abs_le.mp habs).2
    have hc2 : -1 ≤ c := (abs_le.mp habs).1
    have hA2 : A = (1 + e * c) * (1 + e * c) := by
      rw [hA]; linear_combination (-(e * e)) * h1
    have hB2 : B = (1 - e * c) * (1 - e * c) := by
      rw [hB]; linear_combination (-(e * e)) * h1
    have hp : 0 ≤ 1 + e * c := by nlinarith
    have hq : 0 ≤ 1 - e * c := by nlinarith
    rw [hA2, hB2, Real.sqrt_mul_self hp, Real.sqrt_mul_self hq]; ring

theorem estimateNormal_eq (p : Vec4) :
    estimateNormal p = Vec4.normalize
      ⟨Real.sqrt ((p.t + 0.001) * (p.t + 0.001) + p.x * p.x + p.y * p.y + p.z * p.z) -
          Real.sqrt ((p.t - 0.001) * (p.t - 0.001) + p.x * p.x + p.y * p.y + p.z * p.z),
        Real.sqrt (p.t * p.t + (p.x + 0.001) * (p.x + 0.001) + p.y * p.y + p.z * p.z) -
          Real.sqrt (p.t * p.t + (p.x - 0.001) * (p.x - 0.001) + p.y * p.y + p.z * p.z),
        Real.sqrt (p.t * p.t + p.x * p.x + (p.y + 0.001) * (p.y + 0.001) + p.z * p.z) -
          Real.sqrt (p.t * p.t + p.x * p.x + (p.y - 0.001) * (p.y - 0.001) + p.z * p.z),
        Real.sqrt (p.t * p.t + p.x * p.x + p.y * p.y + (p.z + 0.001) * (p.z + 0.001)) -
          Real.sqrt (p.t * p.t + p.x * p.x + p.y * p.y + (p.z - 0.001) * (p.z - 0.001))⟩ := by
  simp only [estimateNormal, sphereSDF, sub_sub_sub_cancel_right]

/-- Normalising a positive multiple of a unit vector gives the unit vector. -/
theorem normalize_scaled (p : Vec4) (k : ℝ) (hk : 0 < k) (hp : magnitude p = 1) :
    Vec4.normalize ⟨p.t * k, p.x * k, p.y * k, p.z * k⟩ = p := by
  have h := sphereSDF_scaled p k 0
  unfold sphereSDF at h
  rw [sub_zero, sub_zero, abs_of_pos hk, hp, mul_one] at h
  have hk0 : k ≠ 0 := ne_of_gt hk
  simp only [Vec4.normalize, h]
  ext <;> simp only <;> field_simp

theorem sumsq_of_unit (p : Vec4) (hp : magnitude p = 1) :
    p.t * p.t + p.x * p.x + p.y * p.y + p.z * p.z = 1 := by
  have := magnitude_sq p
  rw [hp] at this
  linarith

/-- From the per-axis bounds on the four central differences to the alignment
of the normalised gradient with `p`. -/
theorem normalize_dot_bound (p : Vec4) (e : ℝ) (he : 0 < e)
    (hsum : p.t * p.t + p.x * p.x + p.y * p.y + p.z * p.z = 1) (gt gx gy gz : ℝ)
    (hta : 4 * e * (p.t * p.t) ≤ gt * p.t * (2 + e * e))
    (htb : gt * gt ≤ 4 * (e * e) * (p.t * p.t))
    (hxa : 4 * e * (p.x * p.x) ≤ gx * p.x * (2 + e * e))
    (hxb : gx * gx ≤ 4 * (e * e) * (p.x * p.x))
    (hya : 4 * e * (p.y * p.y) ≤ gy * p.y * (2 + e * e))
    (hyb : gy * gy ≤ 4 * (e * e) * (p.y * p.y))
    (hza : 4 * e * (p.z * p.z) ≤ gz * p.z * (2 + e * e))
    (hzb : gz * gz ≤ 4 * (e * e) * (p.z * p.z)) :
    2 ≤ (Vec4.normalize ⟨gt, gx, gy, gz⟩).dot p * (2 + e * e) := by
  have hS : 4 * e ≤ (gt * p.t + gx * p.x + gy * p.y + gz * p.z) * (2 + e * e) := by
    have : 4 * e * (p.t * p.t + p.x * p.x + p.y * p.y + p.z * p.z) = 4 * e := by
      rw [hsum, mul_one]
    linarith
  have hQ : gt * gt + gx * gx + gy * gy + gz * gz ≤ 4 * (e * e) := by
    have : 4 * (e * e) * (p.t * p.t + p.x * p.x + p.y * p.y + p.z * p.z) = 4 * (e * e) := by
      rw [hsum, mul_one]
    linarith
  have hQpos : 0 < gt * gt + gx * gx + gy * gy + gz * gz := by
    by_contra hnot
    have h0 : gt * gt + gx * gx + gy * gy + gz * gz ≤ 0 := not_lt.mp hnot
    have n1 := mul_self_nonneg gt
    have n2 := mul_self_nonneg gx
    have n3 := mul_self_nonneg gy
    have n4 := mul_self_nonneg gz
    have e1 : gt = 0 := mul_self_eq_zero.mp (le_antisymm (by linarith) n1)
    have e2 : gx = 0 := mul_self_eq_zero.mp (le_antisymm (by linarith) n2)
    have e3 : gy = 0 := mul_self_eq_zero.mp (le_antisymm (by linarith) n3)
    have e4 : gz = 0 := mul_self_eq_zero.mp (le_antisymm (by linarith) n4)
    rw [e1, e2, e3, e4] at hS
    simp only [zero_mul, add_zero] at hS
    linarith
  have hL0 : 0 < Real.sqrt (gt * gt + gx * gx + gy * gy + gz * gz) := Real.sqrt_pos.mpr hQpos
  have hL : Real.sqrt (gt * gt + gx * gx + gy * gy + gz * gz) ≤ 2 * e := by
    rw [Real.sqrt_le_iff]
    refine ⟨by linarith, ?_⟩
    have : (2 * e) ^ 2 = 4 * (e * e) := by ring
    rw [this]; exact hQ
  simp only [Vec4.normalize, Vec4.dot]
  generalize Real.sqrt (gt * gt + gx * gx + gy * gy + gz * gz) = L at hL0 hL ⊢
  have hdiv : (gt / L * p.t + gx / L * p.x + gy / L * p.y + gz / L * p.z) * (2 + e * e)
      = ((gt * p.t + gx * p.x + gy * p.y + gz * p.z) * (2 + e * e)) / L := by ring
  rw [hdiv, le_div_iff₀ hL0]
  linarith

/-- The alignment bound of C6. -/
theorem estimateNormal_dot_bound (p : Vec4) (hp : magnitude p = 1) :
    1 - 1 / 10 ^ 6 ≤ (estimateNormal p).dot p := by
  have hsum := sumsq_of_unit p hp
  have he : (0 : ℝ) < 0.001 := by norm_num
  have he1 : (0.001 : ℝ) < 1 := by norm_num
  have n1 := mul_self_nonneg p.t
  have n2 := mul_self_nonneg p.x
  have n3 := mul_self_nonneg p.y
  have n4 := mul_self_nonneg p.z
  obtain ⟨hta, htb⟩ := diff_sqrt_bounds 0.001 p.t
    ((p.t + 0.001) * (p.t + 0.001) + p.x * p.x + p.y * p.y + p.z * p.z)
    ((p.t - 0.001) * (p.t - 0.001) + p.x * p.x + p.y * p.y + p.z * p.z) he he1
    (by linarith) (by linear_combination hsum) (by linear_combination hsum)
  obtain ⟨hxa, hxb⟩ := diff_sqrt_bounds 0.001 p.x
    (p.t * p.t + (p.x + 0.001) * (p.x + 0.001) + p.y * p.y + p.z * p.z)
    (p.t * p.t + (p.x - 0.001) * (p.x - 0.001) + p.y * p.y + p.z * p.z) he he1
    (by linarith) (by linear_combination hsum) (by linear_combination hsum)
  obtain ⟨hya, hyb⟩ := diff_sqrt_bounds 0.001 p.y
    (p.t * p.t + p.x * p.x + (p.y + 0.001) * (p.y + 0.001) + p.z * p.z)
    (p.t * p.t + p.x * p.x + (p.y - 0.001) * (p.y - 0.001) + p.z * p.z) he he1
    (by linarith) (by linear_combination hsum) (by linear_combination hsum)
  obtain ⟨hza, hzb⟩ := diff_sqrt_bounds 0.001 p.z
    (p.t * p.t + p.x * p.x + p.y * p.y + (p.z + 0.001) * (p.z + 0.001))
    (p.t * p.t + p.x * p.x + p.y * p.y + (p.z - 0.001) * (p.z - 0.001)) he he1
    (by linarith) (by linear_combination hsum) (by linear_combination hsum)
  have h := normalize_dot_bound p 0.001 he hsum _ _ _ _ hta htb hxa hxb hya hyb hza hzb
  rw [estimateNormal_eq]
  generalize (Vec4.normalize _).dot p = d at h ⊢
  norm_num at h ⊢
  linarith

/-- On a coordinate axis of the unit sphere the estimate is exact. -/
theorem estimateNormal_of_onAxis (p : Vec4) (hp : magnitude p = 1) (hax : OnAxis p) :
    estimateNormal p = p := by
  have hsum := sumsq_of_unit p hp
  have he : (0 : ℝ) < 0.001 := by norm_num
  have he1 : (0.001 : ℝ) < 1 := by norm_num
  have hcomp : (p.t = 0 ∨ p.t * p.t = 1) ∧ (p.x = 0 ∨ p.x * p.x = 1) ∧
      (p.y = 0 ∨ p.y * p.y = 1) ∧ (p.z = 0 ∨ p.z * p.z = 1) := by
    rcases hax with ⟨h1, h2, h3⟩ | ⟨h1, h2, h3⟩ | ⟨h1, h2, h3⟩ | ⟨h1, h2, h3⟩
    · refine ⟨Or.inr ?_, Or.inl h1, Or.inl h2, Or.inl h3⟩
      rw [h1, h2, h3] at hsum; linarith
    · refine ⟨Or.inl h1, Or.inr ?_, Or.inl h2, Or.inl h3⟩
      rw [h1, h2, h3] at hsum; linarith
    · refine ⟨Or.inl h1, Or.inl h2, Or.inr ?_, Or.inl h3⟩
      rw [h1, h2, h3] at hsum; linarith
    · refine ⟨Or.inl h1, Or.inl h2, Or.inl h3, Or.inr ?_⟩
      rw [h1, h2, h3] at hsum; linarith
  obtain ⟨ht, hx, hy, hz⟩ := hcomp
  rw [estimateNormal_eq,
    diff_sqrt_axis 0.001 p.t _ _ he he1 ht (by linear_combination hsum)
      (by linear_combination hsum),
    diff_sqrt_axis 0.001 p.x _ _ he he1 hx (by linear_combination hsum)
      (by linear_combination hsum),
    diff_sqrt_axis 0.001 p.y _ _ he he1 hy (by linear_combination hsum)
      (by linear_combination hsum),
    diff_sqrt_axis 0.001 p.z _ _ he he1 hz (by linear_combination hsum)
      (by linear_combination hsum)]
  exact normalize_scaled p (2 * 0.001) (by norm_num) hp

/-- C6: at every point `p` of the unit sphere the estimated normal is aligned
with `p`, `dot(estimateNormal p, p) ≥ 1 - 10⁻⁶`, and when `p` lies on a
coordinate axis the estimate equals `p` exactly. -/
theorem estimateNormal_on_sphere (p : Vec4) (hp : magnitude p = 1) :
    1 - 1 / 10 ^ 6 ≤ (estimateNormal p).dot p ∧ (OnAxis p → estimateNormal p = p) :=
  ⟨estimateNormal_dot_bound p hp, estimateNormal_of_onAxis p hp⟩

/-- Witness of C6 at the point `(0, 0, 0, -1)` named in the claim. -/
theorem estimateNormal_on_sphere_witness :
    magnitude ⟨0, 0, 0, -1⟩ = 1 ∧ OnAxis ⟨0, 0, 0, -1⟩ ∧
      1 - 1 / 10 ^ 6 ≤ (estimateNormal ⟨0, 0, 0, -1⟩).dot ⟨0, 0, 0, -1⟩ ∧
      estimateNormal ⟨0, 0, 0, -1⟩ = ⟨0, 0, 0, -1⟩ := by
  have h : magnitude ⟨0, 0, 0, -1⟩ = 1 := by
    rw [magnitude_axis_z]; norm_num
  have hax : OnAxis ⟨0, 0, 0, -1⟩ := Or.inr (Or.inr (Or.inr ⟨rfl, rfl, rfl⟩))
  exact ⟨h, hax, (estimateNormal_on_sphere ⟨0, 0, 0, -1⟩ h).1,
    (estimateNormal_on_sphere ⟨0, 0, 0, -1⟩ h).2 hax⟩

/-- The exact estimate is not confined to the axes: at the unit point
`(1/2, 1/2, 1/2, 1/2)` the four central differences coincide and the estimate is
the point itself. -/
theorem estimateNormal_diagonal :
    magnitude ⟨1 / 2, 1 / 2, 1 / 2, 1 / 2⟩ = 1 ∧ ¬ OnAxis ⟨1 / 2, 1 / 2, 1 / 2, 1 / 2⟩ ∧
      estimateNormal ⟨1 / 2, 1 / 2, 1 / 2, 1 / 2⟩ = ⟨1 / 2, 1 / 2, 1 / 2, 1 / 2⟩ := by
  have hmag : magnitude ⟨1 / 2, 1 / 2, 1 / 2, 1 / 2⟩ = 1 := by
    rw [magnitude_eq]
    have : ((1 : ℝ) / 2 * (1 / 2) + 1 / 2 * (1 / 2) + 1 / 2 * (1 / 2) + 1 / 2 * (1 / 2)) = 1 := by
      norm_num
    simp only [this, Real.sqrt_one]
  refine ⟨hmag, ?_, ?_⟩
  · intro hax
    rcases hax with ⟨h, _, _⟩ | ⟨h, _, _⟩ | ⟨h, _, _⟩ | ⟨h, _, _⟩ <;>
      · simp only at h
        norm_num at h
  · rw [estimateNormal_eq]
    have hp : ((1 : ℝ) / 2 + 0.001) * (1 / 2 + 0.001) = 251001 / 1000000 := by norm_num
    have hq : ((1 : ℝ) / 2 - 0.001) * (1 / 2 - 0.001) = 249001 / 1000000 := by norm_num
    have hh : ((1 : ℝ) / 2) * (1 / 2) = 1 / 4 := by norm_num
    simp only [hp, hq, hh]
    have e1 : (251001 / 1000000 + 1 / 4 + 1 / 4 + 1 / 4 : ℝ) = 1001001 / 1000000 := by norm_num
    have e2 : (1 / 4 + 251001 / 1000000 + 1 / 4 + 1 / 4 : ℝ) = 1001001 / 1000000 := by norm_num
    have e3 : (1 / 4 + 1 / 4 + 251001 / 1000000 + 1 / 4 : ℝ) = 1001001 / 1000000 := by norm_num
    have e4 : (1 / 4 + 1 / 4 + 1 / 4 + 251001 / 1000000 : ℝ) = 1001001 / 1000000 := by norm_num
    have f1 : (249001 / 1000000 + 1 / 4 + 1 / 4 + 1 / 4 : ℝ) = 999001 / 1000000 := by norm_num
    have f2 : (1 / 4 + 249001 / 1000000 + 1 / 4 + 1 / 4 : ℝ) = 999001 / 1000000 := by norm_num
    have f3 : (1 / 4 + 1 / 4 + 249001 / 1000000 + 1 / 4 : ℝ) = 999001 / 1000000 := by norm_num
    have f4 : (1 / 4 + 1 / 4 + 1 / 4 + 249001 / 1000000 : ℝ) = 999001 / 1000000 := by norm_num
    simp only [e1, e2, e3, e4, f1, f2, f3, f4]
    have hg : (0 : ℝ) < 2 * (Real.sqrt (1001001 / 1000000) - Real.sqrt (999001 / 1000000)) := by
      have : Real.sqrt (999001 / 1000000) < Real.sqrt (1001001 / 1000000) :=
        Real.sqrt_lt_sqrt (by norm_num) (by norm_num)
      linarith
    have h := normalize_scaled ⟨1 / 2, 1 / 2, 1 / 2, 1 / 2⟩ _ hg hmag
    simp only at h
    have hr : ∀ g : ℝ, 1 / 2 * (2 * g) = g := fun g => by ring
    rw [hr] at h
    exact h

/-! ## C7: the centre pixel -/

theorem normalize_axis_z (c : ℝ) (_hc : c ≠ 0) :
    Vec4.normalize ⟨0, 0, 0, c⟩ = ⟨0, 0, 0, c / |c|⟩ := by
  have h := magnitude_axis_z c
  rw [magnitude_eq] at h
  simp only [Vec4.normalize, h, zero_div]

theorem rayDir_centre : rayDir 400 300 = ⟨0, 0, 0, 1⟩ := by
  have hu : (((400 : ℤ) : ℝ) - ((width : ℤ) : ℝ) / 2.0) / ((height : ℤ) : ℝ) = 0 := by
    simp only [width, height]; norm_num
  have hv : (((300 : ℤ) : ℝ) - ((height : ℤ) : ℝ) / 2.0) / ((height : ℤ) : ℝ) = 0 := by
    simp only [height]; norm_num
  simp only [rayDir, hu, hv]
  rw [normalize_axis_z 1 one_ne_zero]
  norm_num

theorem towardCentre_camera : towardCentre cameraPos = ⟨0, 0, 0, 1⟩ := by
  simp only [towardCentre, cameraPos, neg_zero, neg_neg]
  rw [normalize_axis_z 5 (by norm_num)]
  norm_num

theorem magnitude_camera : magnitude cameraPos = 5 := by
  simp only [cameraPos]
  rw [magnitude_axis_z]; norm_num

theorem rayMarch_centre : rayMarch cameraPos (rayDir 400 300) = 4 := by
  rw [rayDir_centre, ← towardCentre_camera,
    rayMarch_toward_value cameraPos (by rw [magnitude_camera]; norm_num)
      (by rw [magnitude_camera]; norm_num), magnitude_camera]
  norm_num

theorem hitPoint_centre : cameraPos + rayDir 400 300 * (4 : ℝ) = ⟨0, 0, 0, -1⟩ := by
  rw [rayDir_centre]
  simp only [cameraPos, Vec4.add_def, Vec4.mul_def]
  norm_num

theorem toInt_natCast (n : ℕ) : toInt (n : ℝ) = n := by
  simp [toInt]

theorem shade_centre : shade (rayDir 400 300) 4 = 40 := by
  have hmag : magnitude ⟨0, 0, 0, -1⟩ = 1 := by
    rw [magnitude_axis_z]; norm_num
  have hn : estimateNormal ⟨0, 0, 0, -1⟩ = ⟨0, 0, 0, -1⟩ :=
    estimateNormal_of_onAxis _ hmag (Or.inr (Or.inr (Or.inr ⟨rfl, rfl, rfl⟩)))
  have hl : (cameraPos - (⟨0, 0, 0, -1⟩ : Vec4)).normalize = ⟨0, 0, 0, -1⟩ := by
    simp only [cameraPos, Vec4.sub_def, sub_zero]
    rw [normalize_axis_z _ (by norm_num)]
    norm_num
  have hlight : lighting ⟨0, 0, 0, -1⟩ ⟨0, 0, 0, -1⟩ = 1 := by
    simp only [lighting, diffuse, ambient, Vec4.dot]
    norm_num
  have hr : Real.sqrt ((0 : ℝ) * 0 + 0 * 0 + (-1) * (-1)) = 1 := by norm_num
  have hu : (0.5 : ℝ) + atan2 0 0 / (2.0 * Real.pi) = 1 / 2 := by
    have : (⟨0, 0⟩ : ℂ) = 0 := rfl
    simp only [atan2, this, Complex.arg_zero, zero_div, add_zero]
    norm_num
  have hv : (0.5 : ℝ) - Real.arcsin (-1 / 1) / Real.pi = 1 := by
    have hpi : Real.pi ≠ 0 := Real.pi_ne_zero
    rw [div_one, Real.arcsin_neg_one]
    field_simp
    ring
  have hbase : baseColor (1 / 2) 1 = 40 := by
    have h4 : toInt ((1 / 2 : ℝ) * ((8 : ℤ) : ℝ)) = 4 := by
      have : (1 / 2 : ℝ) * ((8 : ℤ) : ℝ) = ((4 : ℕ) : ℝ) := by norm_num
      rw [this, toInt_natCast]; rfl
    have h8 : toInt ((1 : ℝ) * ((8 : ℤ) : ℝ)) = 8 := by
      have : (1 : ℝ) * ((8 : ℤ) : ℝ) = ((8 : ℕ) : ℝ) := by norm_num
      rw [this, toInt_natCast]; rfl
    simp only [baseColor, h4, h8]
    decide
  simp only [shade]
  rw [hitPoint_centre]
  simp only [hn, hl, hlight, hr, hu, hv, hbase]
  have : (((40 : ℤ) : ℝ)) * 1 = ((40 : ℕ) : ℝ) := by norm_num
  rw [this, toInt_natCast]; rfl

/-- C7: at the centre pixel `(400, 300)` the ray direction is `(0, 0, 0, 1)`,
the march hits at distance 4 in the point `(0, 0, 0, -1)`, and the emitted
intensity, 40, is above the ambient floor 38. -/
theorem centre_pixel :
    rayDir 400 300 = ⟨0, 0, 0, 1⟩ ∧
      rayMarch cameraPos (rayDir 400 300) = 4 ∧
      cameraPos + rayDir 400 300 * rayMarch cameraPos (rayDir 400 300) = ⟨0, 0, 0, -1⟩ ∧
      38 < shade (rayDir 400 300) (rayMarch cameraPos (rayDir 400 300)) ∧
      pixelLine 400 300 = "40 40 40\n" := by
  refine ⟨rayDir_centre, rayMarch_centre, ?_, ?_, ?_⟩
  · rw [rayMarch_centre]; exact hitPoint_centre
  · rw [rayMarch_centre, shade_centre]; decide
  · simp only [pixelLine, rayMarch_centre, shade_centre]
    rw [if_pos (by norm_num)]
    decide

/-! ## C8: the corner pixel -/

theorem rayDir_corner : rayDir 0 0 = Vec4.normalize ⟨0, -2 / 3, -1 / 2, 1⟩ := by
  have hu : (((0 : ℤ) : ℝ) - ((width : ℤ) : ℝ) / 2.0) / ((height : ℤ) : ℝ) = -2 / 3 := by
    simp only [width, height]; norm_num
  have hv : (((0 : ℤ) : ℝ) - ((height : ℤ) : ℝ) / 2.0) / ((height : ℤ) : ℝ) = -1 / 2 := by
    simp only [height]; norm_num
  simp only [rayDir, hu, hv]

/-- Every point of the corner ray stays more than 3 away from the centre. -/
theorem corner_ray_clear (d : ℝ) :
    0.001 ≤ sphereSDF (cameraPos + Vec4.normalize ⟨0, -2 / 3, -1 / 2, 1⟩ * d) 1 := by
  have hlen : (0 : ℝ) * 0 + -2 / 3 * (-2 / 3) + -1 / 2 * (-1 / 2) + 1 * 1 = 61 / 36 := by
    norm_num
  simp only [sphereSDF, Vec4.normalize, hlen, cameraPos, Vec4.add_def, Vec4.mul_def]
  generalize Real.sqrt (61 / 36) = L
  have hsq : (0 + 0 / L * d) * (0 + 0 / L * d) + (0 + -2 / 3 / L * d) * (0 + -2 / 3 / L * d) +
      (0 + -1 / 2 / L * d) * (0 + -1 / 2 / L * d) + (-5 + 1 / L * d) * (-5 + 1 / L * d)
      = 61 / 36 * ((d / L) * (d / L)) - 10 * (d / L) + 25 := by ring
  rw [hsq]
  have hbig : (1.001 : ℝ) ^ 2 ≤ 61 / 36 * ((d / L) * (d / L)) - 10 * (d / L) + 25 := by
    generalize d / L = s
    nlinarith [mul_self_nonneg (61 * s - 180)]
  have := (Real.le_sqrt' (by norm_num : (0 : ℝ) < 1.001)).mpr hbig
  have h1 : (1.001 : ℝ) = 0.001 + 1 := by norm_num
  linarith

theorem rayMarch_corner : rayMarch cameraPos (rayDir 0 0) = -1 := by
  rw [rayDir_corner]
  exact rayMarchLoop_miss _ _ (fun d _ => corner_ray_clear d) 100 0 le_rfl

/-- C8: at the corner pixel `(0, 0)` the ray direction is
`normalize (0, -2/3, -1/2, 1)`, the march returns the no-hit sentinel and the
line written is the background triplet. -/
theorem corner_pixel :
    rayDir 0 0 = Vec4.normalize ⟨0, -2 / 3, -1 / 2, 1⟩ ∧
      rayMarch cameraPos (rayDir 0 0) = -1 ∧ pixelLine 0 0 = "0 0 0\n" := by
  refine ⟨rayDir_corner, rayMarch_corner, ?_⟩
  simp only [pixelLine, rayMarch_corner]
  rw [if_neg (by norm_num)]

/-! ## C9: checker parity -/

theorem toInt_of_nonneg (f : ℝ) (hf : 0 ≤ f) : toInt f = ⌊f⌋ := by
  simp only [toInt, if_pos hf]

/-- The base colour from the parity of the two tile indices, for non-negative
texture coordinates. -/
theorem baseColor_of_nonneg (u v : ℝ) (hu : 0 ≤ u) (hv : 0 ≤ v) :
    baseColor u v = if (⌊u * 8⌋ + ⌊v * 8⌋) % 2 = 0 then 40 else 220 := by
  have hu8 : 0 ≤ u * ((8 : ℤ) : ℝ) := by push_cast; linarith
  have hv8 : 0 ≤ v * ((8 : ℤ) : ℝ) := by push_cast; linarith
  have ha : 0 ≤ ⌊u * 8⌋ := Int.floor_nonneg.mpr (by linarith)
  have hb : 0 ≤ ⌊v * 8⌋ := Int.floor_nonneg.mpr (by linarith)
  simp only [baseColor, toInt_of_nonneg _ hu8, toInt_of_nonneg _ hv8]
  push_cast
  rw [Int.tmod_eq_emod (by omega) (by norm_num)]
  by_cases h : (⌊u * 8⌋ + ⌊v * 8⌋) % 2 = 0
  · simp [h]
  · simp [h]

/-- C9: for texture coordinates `u, v ≥ 0`, shifting `u` by one tile (`1/8`)
with `v` fixed selects the opposite base colour: one is 40, the other 220. -/
theorem checker_parity (u v : ℝ) (hu : 0 ≤ u) (hv : 0 ≤ v) :
    (baseColor u v = 40 ∧ baseColor (u + 1 / 8) v = 220) ∨
      (baseColor u v = 220 ∧ baseColor (u + 1 / 8) v = 40) := by
  have hshift : ⌊(u + 1 / 8) * 8⌋ = ⌊u * 8⌋ + 1 := by
    have : (u + 1 / 8) * 8 = u * 8 + 1 := by ring
    rw [this, Int.floor_add_one]
  rw [baseColor_of_nonneg u v hu hv, baseColor_of_nonneg (u + 1 / 8) v (by linarith) hv, hshift]
  by_cases h : (⌊u * 8⌋ + ⌊v * 8⌋) % 2 = 0
  · have h2 : ¬ (⌊u * 8⌋ + 1 + ⌊v * 8⌋) % 2 = 0 := by omega
    left; simp [h, h2]
  · have h2 : (⌊u * 8⌋ + 1 + ⌊v * 8⌋) % 2 = 0 := by omega
    right; simp [h, h2]

/-- Witness of C9 at `u = 0`, `v = 0`. -/
theorem checker_parity_witness :
    (0 : ℝ) ≤ 0 ∧ (0 : ℝ) ≤ 0 ∧
      ((baseColor 0 0 = 40 ∧ baseColor (0 + 1 / 8) 0 = 220) ∨
        (baseColor 0 0 = 220 ∧ baseColor (0 + 1 / 8) 0 = 40)) :=
  ⟨le_rfl, le_rfl, checker_parity 0 0 le_rfl le_rfl⟩

/-! ## C10: the lighting multiplier -/

/-- C10: the lighting multiplier `min(1, max(0, dot) + 0.15)` lies in
`[0.15, 1]` and equals the ambient level 0.15 whenever the dot product is not
positive. -/
theorem lighting_range (normal lightDir : Vec4) :
    0.15 ≤ lighting normal lightDir ∧ lighting normal lightDir ≤ 1 ∧
      (normal.dot lightDir ≤ 0 → lighting normal lightDir = 0.15) := by
  have hd : 0 ≤ max 0 (normal.dot lightDir) := le_max_left _ _
  refine ⟨?_, ?_, ?_⟩
  · simp only [lighting, diffuse, ambient]
    apply le_min
    · norm_num
    · linarith
  · simp only [lighting]
    exact min_le_left _ _
  · intro h
    simp only [lighting, diffuse, ambient, max_eq_left h, zero_add]
    apply min_eq_right
    norm_num

/-! ## The parts named above, inside the source functions -/

theorem estimateNormal_eq_normalize_gradient (p : Vec4) :
    estimateNormal p = (gradient p).normalize := rfl

theorem rayDir_eq_normalize_rayVector (x y : ℤ) : rayDir x y = (rayVector x y).normalize := rfl

theorem shade_eq (rd : Vec4) (dist : ℝ) :
    shade rd dist =
      toInt ((baseColor (sphere_u (cameraPos + rd * dist)) (sphere_v (cameraPos + rd * dist)) : ℝ) *
        lighting (estimateNormal (cameraPos + rd * dist))
          (cameraPos - (cameraPos + rd * dist)).normalize) := rfl

theorem pixelLine_eq_tripletLine (x y : ℤ) : pixelLine x y = tripletLine (pixelChannels x y) := by
  unfold pixelLine pixelChannels
  by_cases h : rayMarch cameraPos (rayDir x y) > 0
  · simp only [if_pos h]; rfl
  · simp only [if_neg h]; decide

theorem add_mul_zero (ro rd : Vec4) : ro + rd * (0 : ℝ) = ro := by
  ext <;> simp

theorem rayMarchSamples_hit (ro rd : Vec4) (n : ℕ) (depth : ℝ)
    (h : sphereSDF (ro + rd * depth) 1 < 0.001) :
    rayMarchSamples ro rd (n + 1) depth = [depth] := by
  simp only [rayMarchSamples, if_pos h]

theorem rayMarchSamples_far (ro rd : Vec4) (n : ℕ) (depth : ℝ)
    (h : ¬ sphereSDF (ro + rd * depth) 1 < 0.001)
    (hfar : depth + sphereSDF (ro + rd * depth) 1 > 100) :
    rayMarchSamples ro rd (n + 1) depth = [depth] := by
  simp only [rayMarchSamples, if_neg h, if_pos hfar]

theorem rayMarchSamples_step (ro rd : Vec4) (n : ℕ) (depth : ℝ)
    (h : ¬ sphereSDF (ro + rd * depth) 1 < 0.001)
    (hfar : ¬ depth + sphereSDF (ro + rd * depth) 1 > 100) :
    rayMarchSamples ro rd (n + 1) depth =
      depth :: rayMarchSamples ro rd n (depth + sphereSDF (ro + rd * depth) 1) := by
  simp only [rayMarchSamples, if_neg h, if_neg hfar]

/-! ## C11: the emitted channels -/

theorem lighting_lower (normal lightDir : Vec4) : 0.15 ≤ lighting normal lightDir := by
  have hd : 0 ≤ max 0 (normal.dot lightDir) := le_max_left _ _
  simp only [lighting, diffuse, ambient]
  apply le_min
  · norm_num
  · linarith

theorem lighting_upper (normal lightDir : Vec4) : lighting normal lightDir ≤ 1 :=
  min_le_left _ _

theorem baseColor_cases (u v : ℝ) : baseColor u v = 40 ∨ baseColor u v = 220 := by
  unfold baseColor
  simp only
  split_ifs
  · right; rfl
  · left; rfl

/-- Truncating a real in `[6, 220]` gives an integer in `[6, 220]`. -/
theorem toInt_bounds (f : ℝ) (h1 : 6 ≤ f) (h2 : f ≤ 220) : 6 ≤ toInt f ∧ toInt f ≤ 220 := by
  have h0 : 0 ≤ f := by linarith
  simp only [toInt, if_pos h0]
  constructor
  · exact Int.le_floor.mpr (by push_cast; exact h1)
  · have : ⌊f⌋ ≤ ⌊(220 : ℝ)⌋ := Int.floor_mono h2
    have h220 : ⌊(220 : ℝ)⌋ = 220 := by
      have : ((220 : ℤ) : ℝ) = 220 := by norm_num
      rw [← this, Int.floor_intCast]
    rw [h220] at this; exact this

/-- A shaded colour is at least 6 (dark tile at ambient level) and at most 220. -/
theorem shade_bounds (rd : Vec4) (dist : ℝ) : 6 ≤ shade rd dist ∧ shade rd dist ≤ 220 := by
  rw [shade_eq]
  have hlo := lighting_lower (estimateNormal (cameraPos + rd * dist))
    (cameraPos - (cameraPos + rd * dist)).normalize
  have hhi := lighting_upper (estimateNormal (cameraPos + rd * dist))
    (cameraPos - (cameraPos + rd * dist)).normalize
  generalize lighting (estimateNormal (cameraPos + rd * dist))
    (cameraPos - (cameraPos + rd * dist)).normalize = l at hlo hhi
  have h15 : (0.15 : ℝ) = 3 / 20 := by norm_num
  rw [h15] at hlo
  rcases baseColor_cases (sphere_u (cameraPos + rd * dist)) (sphere_v (cameraPos + rd * dist))
    with hb | hb
  · rw [hb]; apply toInt_bounds <;> push_cast <;> linarith
  · rw [hb]; apply toInt_bounds <;> push_cast <;> linarith

/-- C11: every pixel (at any coordinates, those of the raster included) is
written as three equal channel values `c` with `0 ≤ c ≤ 255`; for a shaded
pixel `c` is the truncation of `baseColor * min(1, diffuse + ambient)` with
`baseColor` 40 or 220. -/
theorem pixel_monochrome (x y : ℤ) :
    ∃ c : ℤ, pixelChannels x y = (c, c, c) ∧ pixelLine x y = tripletLine (c, c, c) ∧
      0 ≤ c ∧ c ≤ 255 ∧
      (0 < rayMarch cameraPos (rayDir x y) →
        ∃ b : ℤ, (b = 40 ∨ b = 220) ∧
          b = baseColor
            (sphere_u (cameraPos + rayDir x y * rayMarch cameraPos (rayDir x y)))
            (sphere_v (cameraPos + rayDir x y * rayMarch cameraPos (rayDir x y))) ∧
          c = toInt ((b : ℝ) * min 1
            (diffuse (estimateNormal (cameraPos + rayDir x y * rayMarch cameraPos (rayDir x y)))
              (cameraPos - (cameraPos + rayDir x y * rayMarch cameraPos (rayDir x y))).normalize
              + ambient))) := by
  by_cases h : rayMarch cameraPos (rayDir x y) > 0
  · have hb := shade_bounds (rayDir x y) (rayMarch cameraPos (rayDir x y))
    have hc : pixelChannels x y = (shade (rayDir x y) (rayMarch cameraPos (rayDir x y)),
        shade (rayDir x y) (rayMarch cameraPos (rayDir x y)),
        shade (rayDir x y) (rayMarch cameraPos (rayDir x y))) := by
      simp only [pixelChannels, if_pos h]
    refine ⟨shade (rayDir x y) (rayMarch cameraPos (rayDir x y)), hc, ?_, by linarith [hb.1],
      by linarith [hb.2], ?_⟩
    · rw [pixelLine_eq_tripletLine, hc]
    · intro _
      exact ⟨_, baseColor_cases _ _, rfl, rfl⟩
  · have hc : pixelChannels x y = (0, 0, 0) := by
      simp only [pixelChannels, if_neg h]
    refine ⟨0, hc, ?_, le_rfl, by norm_num, ?_⟩
    · rw [pixelLine_eq_tripletLine, hc]
    · intro hpos; exact absurd hpos h

/-! ## C12: an origin within the hit threshold -/

/-- C12: when the origin is already within the hit threshold of the surface
(`sphereSDF ro 1 < 0.001`, inside the sphere included), for every direction
`rayMarch` returns depth 0 and the first sample is the only one taken. -/
theorem rayMarch_origin_within_epsilon (ro rd : Vec4) (h : sphereSDF ro 1 < 0.001) :
    rayMarch ro rd = 0 ∧ rayMarchSamples ro rd 100 0 = [0] := by
  have h0 : sphereSDF (ro + rd * (0 : ℝ)) 1 < 0.001 := by rw [add_mul_zero]; exact h
  constructor
  · show rayMarchLoop ro rd (99 + 1) 0 = 0
    exact rayMarchLoop_hit ro rd 99 0 h0
  · show rayMarchSamples ro rd (99 + 1) 0 = [0]
    exact rayMarchSamples_hit ro rd 99 0 h0

/-- Witness of C12 at the centre of the sphere, direction `(0, 0, 0, 1)`. -/
theorem rayMarch_origin_within_epsilon_witness :
    sphereSDF ⟨0, 0, 0, 0⟩ 1 < 0.001 ∧
      rayMarch ⟨0, 0, 0, 0⟩ ⟨0, 0, 0, 1⟩ = 0 ∧
      rayMarchSamples ⟨0, 0, 0, 0⟩ ⟨0, 0, 0, 1⟩ 100 0 = [0] := by
  have h : sphereSDF ⟨0, 0, 0, 0⟩ 1 < 0.001 := by
    simp only [sphereSDF]; norm_num
  exact ⟨h, rayMarch_origin_within_epsilon ⟨0, 0, 0, 0⟩ ⟨0, 0, 0, 1⟩ h⟩

/-! ## C13: the hit test of the driver -/

/-- Started at a positive depth, the loop yields the sentinel or a positive depth. -/
theorem rayMarchLoop_pos (ro rd : Vec4) (n : ℕ) :
    ∀ depth : ℝ, 0 < depth →
      rayMarchLoop ro rd n depth = -1 ∨ 0 < rayMarchLoop ro rd n depth := by
  induction n with
  | zero => intro depth _; left; rfl
  | succ k ih =>
    intro depth hd
    by_cases hhit : sphereSDF (ro + rd * depth) 1 < 0.001
    · right; rw [rayMarchLoop_hit ro rd k depth hhit]; exact hd
    · by_cases hfar : depth + sphereSDF (ro + rd * depth) 1 > 100
      · left; exact rayMarchLoop_far ro rd k depth hhit hfar
      · rw [rayMarchLoop_step ro rd k depth hhit hfar]
        apply ih
        have h001 : (0 : ℝ) < 0.001 := by norm_num
        linarith [not_lt.mp hhit]

theorem sphereSDF_camera : sphereSDF cameraPos 1 = 4 := by
  have h : sphereSDF cameraPos 1 = magnitude cameraPos - 1 := rfl
  rw [h, magnitude_camera]; norm_num

/-- From the camera no ray hits at depth 0: the result is the sentinel or positive. -/
theorem rayMarch_camera_pos (rd : Vec4) :
    rayMarch cameraPos rd = -1 ∨ 0 < rayMarch cameraPos rd := by
  have h0 : sphereSDF (cameraPos + rd * (0 : ℝ)) 1 = 4 := by
    rw [add_mul_zero, sphereSDF_camera]
  show rayMarchLoop cameraPos rd (99 + 1) 0 = -1 ∨ 0 < rayMarchLoop cameraPos rd (99 + 1) 0
  rw [rayMarchLoop_step cameraPos rd 99 0 (by rw [h0]; norm_num) (by rw [h0]; norm_num), h0]
  exact rayMarchLoop_pos cameraPos rd 99 _ (by norm_num)

theorem pixelChannels_hit (x y : ℤ) (h : 0 < rayMarch cameraPos (rayDir x y)) :
    pixelChannels x y =
      (shade (rayDir x y) (rayMarch cameraPos (rayDir x y)),
        shade (rayDir x y) (rayMarch cameraPos (rayDir x y)),
        shade (rayDir x y) (rayMarch cameraPos (rayDir x y))) := by
  simp only [pixelChannels]
  rw [if_pos h]

theorem pixelChannels_miss (x y : ℤ) (h : ¬ 0 < rayMarch cameraPos (rayDir x y)) :
    pixelChannels x y = (0, 0, 0) := by
  simp only [pixelChannels]
  rw [if_neg h]

/-- C13: for every pixel (at any coordinates, those of the raster included) the
march from the camera returns the sentinel or a positive distance, never a hit
at depth 0; so the test `dist > 0` selects the hits: the shaded colour is
written exactly when a hit distance (`≥ 0`) was returned, the background
`0 0 0` exactly when the sentinel was returned. -/
theorem driver_hit_test (x y : ℤ) :
    (rayMarch cameraPos (rayDir x y) = -1 ∨ 0 < rayMarch cameraPos (rayDir x y)) ∧
      (0 ≤ rayMarch cameraPos (rayDir x y) ↔
        pixelChannels x y =
          (shade (rayDir x y) (rayMarch cameraPos (rayDir x y)),
            shade (rayDir x y) (rayMarch cameraPos (rayDir x y)),
            shade (rayDir x y) (rayMarch cameraPos (rayDir x y)))) ∧
      (rayMarch cameraPos (rayDir x y) = -1 ↔ pixelChannels x y = (0, 0, 0)) ∧
      (rayMarch cameraPos (rayDir x y) = -1 → pixelLine x y = "0 0 0\n") ∧
      (0 ≤ rayMarch cameraPos (rayDir x y) →
        pixelLine x y = tripletLine
          (shade (rayDir x y) (rayMarch cameraPos (rayDir x y)),
            shade (rayDir x y) (rayMarch cameraPos (rayDir x y)),
            shade (rayDir x y) (rayMarch cameraPos (rayDir x y)))) := by
  have hcases := rayMarch_camera_pos (rayDir x y)
  have hsh := (shade_bounds (rayDir x y) (rayMarch cameraPos (rayDir x y))).1
  have hne : shade (rayDir x y) (rayMarch cameraPos (rayDir x y)) ≠ 0 := by
    intro h0; rw [h0] at hsh; exact absurd hsh (by decide)
  refine ⟨hcases, ?_, ?_, ?_, ?_⟩
  · constructor
    · intro h0
      rcases hcases with hm | hp
      · rw [hm] at h0; exact absurd h0 (by norm_num)
      · exact pixelChannels_hit x y hp
    · intro hc
      rcases hcases with hm | hp
      · have hmiss := pixelChannels_miss x y (by rw [hm]; norm_num)
        rw [hmiss] at hc
        exact absurd (congrArg Prod.fst hc).symm hne
      · exact hp.le
  · constructor
    · intro hm
      exact pixelChannels_miss x y (by rw [hm]; norm_num)
    · intro hc
      rcases hcases with hm | hp
      · exact hm
      · rw [pixelChannels_hit x y hp] at hc
        exact absurd (congrArg Prod.fst hc) hne
  · intro hm
    rw [pixelLine_eq_tripletLine, pixelChannels_miss x y (by rw [hm]; norm_num)]
    decide
  · intro h0
    rcases hcases with hm | hp
    · rw [hm] at h0; exact absurd h0 (by norm_num)
    · rw [pixelLine_eq_tripletLine, pixelChannels_hit x y hp]

/-- Witness of C13: the centre pixel is a hit and is written shaded, the corner
pixel is a miss and is written as background. -/
theorem driver_hit_test_witness :
    0 ≤ rayMarch cameraPos (rayDir 400 300) ∧
      pixelChannels 400 300 =
        (shade (rayDir 400 300) (rayMarch cameraPos (rayDir 400 300)),
          shade (rayDir 400 300) (rayMarch cameraPos (rayDir 400 300)),
          shade (rayDir 400 300) (rayMarch cameraPos (rayDir 400 300))) ∧
      rayMarch cameraPos (rayDir 0 0) = -1 ∧ pixelChannels 0 0 = (0, 0, 0) := by
  have h1 : 0 ≤ rayMarch cameraPos (rayDir 400 300) := by rw [rayMarch_centre]; norm_num
  exact ⟨h1, (driver_hit_test 400 300).2.1.mp h1, rayMarch_corner,
    (driver_hit_test 0 0).2.2.1.mp rayMarch_corner⟩

/-! ## C15: no overshoot -/

/-- Cauchy-Schwarz in four components. -/
theorem dot_sq_le (a b : Vec4) :
    a.dot b * a.dot b ≤ (magnitude a * magnitude a) * (magnitude b * magnitude b) := by
  rw [magnitude_sq, magnitude_sq]
  have h : (a.t * a.t + a.x * a.x + a.y * a.y + a.z * a.z) *
      (b.t * b.t + b.x * b.x + b.y * b.y + b.z * b.z) - a.dot b * a.dot b =
      (a.t * b.x - a.x * b.t) * (a.t * b.x - a.x * b.t) +
      (a.t * b.y - a.y * b.t) * (a.t * b.y - a.y * b.t) +
      (a.t * b.z - a.z * b.t) * (a.t * b.z - a.z * b.t) +
      (a.x * b.y - a.y * b.x) * (a.x * b.y - a.y * b.x) +
      (a.x * b.z - a.z * b.x) * (a.x * b.z - a.z * b.x) +
      (a.y * b.z - a.z * b.y) * (a.y * b.z - a.z * b.y) := by
    simp only [Vec4.dot]; ring
  have h1 := mul_self_nonneg (a.t * b.x - a.x * b.t)
  have h2 := mul_self_nonneg (a.t * b.y - a.y * b.t)
  have h3 := mul_self_nonneg (a.t * b.z - a.z * b.t)
  have h4 := mul_self_nonneg (a.x * b.y - a.y * b.x)
  have h5 := mul_self_nonneg (a.x * b.z - a.z * b.x)
  have h6 := mul_self_nonneg (a.y * b.z - a.z * b.y)
  linarith

/-- One sphere-tracing step along a unit direction, of length the distance to
the unit sphere, ends on or outside the sphere. -/
theorem step_outside (p rd : Vec4) (hrd : magnitude rd = 1) (hp : 1 ≤ magnitude p) :
    1 ≤ magnitude (p + rd * (magnitude p - 1)) := by
  have hcs := dot_sq_le p rd
  rw [hrd, mul_one, mul_one] at hcs
  have hm0 : 0 ≤ magnitude p := magnitude_nonneg p
  have hq : -magnitude p ≤ p.dot rd := by
    have habs : |p.dot rd| ≤ |magnitude p| := abs_le_iff_mul_self_le.mpr hcs
    rw [abs_of_nonneg hm0] at habs
    exact (abs_le.mp habs).1
  have hmp := magnitude_sq p
  have hmr := magnitude_sq rd
  rw [hrd, mul_one] at hmr
  rw [magnitude_eq]
  apply (Real.le_sqrt' (by norm_num : (0 : ℝ) < 1)).mpr
  simp only [Vec4.add_def, Vec4.mul_def]
  generalize magnitude p = m at hp hm0 hq hmp
  have hexp : (p.t + rd.t * (m - 1)) * (p.t + rd.t * (m - 1)) +
      (p.x + rd.x * (m - 1)) * (p.x + rd.x * (m - 1)) +
      (p.y + rd.y * (m - 1)) * (p.y + rd.y * (m - 1)) +
      (p.z + rd.z * (m - 1)) * (p.z + rd.z * (m - 1)) =
      (p.t * p.t + p.x * p.x + p.y * p.y + p.z * p.z) + 2 * (m - 1) * p.dot rd +
      (m - 1) * (m - 1) * (rd.t * rd.t + rd.x * rd.x + rd.y * rd.y + rd.z * rd.z) := by
    simp only [Vec4.dot]; ring
  rw [hexp, ← hmp, ← hmr]
  have hs : 0 ≤ m - 1 := by linarith
  have := mul_le_mul_of_nonneg_left hq hs
  nlinarith

theorem point_add_step (ro rd : Vec4) (depth s : ℝ) :
    ro + rd * (depth + s) = (ro + rd * depth) + rd * s := by
  ext <;> simp only [Vec4.add_def, Vec4.mul_def] <;> ring

theorem sphereSDF_one (p : Vec4) : sphereSDF p 1 = magnitude p - 1 := rfl

/-- Loop invariant behind C15: once a sample is on or outside the sphere, so
are all later ones. -/
theorem rayMarchSamples_outside (ro rd : Vec4) (hrd : magnitude rd = 1) (n : ℕ) :
    ∀ depth : ℝ, 0 ≤ sphereSDF (ro + rd * depth) 1 →
      ∀ d ∈ rayMarchSamples ro rd n depth, 0 ≤ sphereSDF (ro + rd * d) 1 := by
  induction n with
  | zero =>
    intro depth _ d hd
    have : rayMarchSamples ro rd 0 depth = [] := rfl
    rw [this] at hd
    exact absurd hd (List.not_mem_nil d)
  | succ k ih =>
    intro depth h0 d hd
    by_cases hhit : sphereSDF (ro + rd * depth) 1 < 0.001
    · rw [rayMarchSamples_hit ro rd k depth hhit, List.mem_singleton] at hd
      rw [hd]; exact h0
    · by_cases hfar : depth + sphereSDF (ro + rd * depth) 1 > 100
      · rw [rayMarchSamples_far ro rd k depth hhit hfar, List.mem_singleton] at hd
        rw [hd]; exact h0
      · rw [rayMarchSamples_step ro rd k depth hhit hfar] at hd
        rcases List.mem_cons.mp hd with heq | hrest
        · rw [heq]; exact h0
        · refine ih _ ?_ d hrest
          have h1 : 1 ≤ magnitude (ro + rd * depth) := by
            rw [sphereSDF_one] at h0; linarith
          have hstep := step_outside (ro + rd * depth) rd hrd h1
          rw [point_add_step, sphereSDF_one (ro + rd * depth), sphereSDF_one]
          linarith

/-- The rounding of the binary32 reading on known values: one tenth and one
third, the two kinds of tie, a value below the smallest float, the first
integer that is not a float, and four square roots. -/
theorem F32.round_known_values :
    F32.round (1 / 10) = 13421773 / 134217728 ∧
      F32.round (1 / 3) = 11184811 / 33554432 ∧
      F32.round (1 + 1 / 2 ^ 24) = 1 ∧
      F32.round (1 + 3 / 2 ^ 24) = 1 + 1 / 2 ^ 22 ∧
      F32.round (1 / 2 ^ 150) = 0 ∧
      F32.round (3 / 2 ^ 150) = 1 / 2 ^ 148 ∧
      F32.round 16777217 = 16777216 ∧
      F32.sqrt 2 = 11863283 / 8388608 ∧
      F32.sqrt 3 = 14529495 / 8388608 ∧
      F32.sqrt (1 / 4) = 1 / 2 ∧
      F32.sqrt (1 / 8) = 11863283 / 33554432 := by
  decide!

/-- The halving count bounds `n`: `n < 2 ^ (log2Loop f n + 1)` once `f ≥ n`. -/
theorem F32.lt_two_pow_log2Loop (f : ℕ) : ∀ n : ℕ, n ≤ f → n < 2 ^ (F32.log2Loop f n + 1) := by
  induction f with
  | zero =>
    intro n hn
    have : n = 0 := by omega
    subst this
    simp [F32.log2Loop]
  | succ k ih =>
    intro n hn
    by_cases h2 : 2 ≤ n
    · have hrec : F32.log2Loop (k + 1) n = F32.log2Loop k (n / 2) + 1 := by
        simp only [F32.log2Loop, if_pos h2]
      have hhalf := ih (n / 2) (by omega)
      rw [hrec, pow_succ]
      omega
    · have hrec : F32.log2Loop (k + 1) n = 0 := by
        simp only [F32.log2Loop, if_neg h2]
      rw [hrec]
      omega

theorem F32.isqrtLoop_spec (n : ℕ) (b : ℕ) :
    ∀ r : ℕ, r * r ≤ n → n < (r + 2 ^ b) * (r + 2 ^ b) →
      F32.isqrtLoop n b r * F32.isqrtLoop n b r ≤ n ∧
        n < (F32.isqrtLoop n b r + 1) * (F32.isqrtLoop n b r + 1) := by
  induction b with
  | zero =>
    intro r h1 h2
    simpa [F32.isqrtLoop] using And.intro h1 h2
  | succ k ih =>
    intro r h1 h2
    simp only [F32.isqrtLoop]
    by_cases hc : (r + 2 ^ k) * (r + 2 ^ k) ≤ n
    · rw [if_pos hc]
      apply ih _ hc
      have : r + 2 ^ k + 2 ^ k = r + 2 ^ (k + 1) := by rw [pow_succ]; omega
      rw [this]; exact h2
    · rw [if_neg hc]
      exact ih _ h1 (not_le.mp hc)

/-- The integer square root of the binary32 reading is the integer square root. -/
theorem F32.isqrt_eq_sqrt (n : ℕ) : F32.isqrt n = Nat.sqrt n := by
  have hlt := F32.lt_two_pow_log2Loop n n le_rfl
  have hpow : 2 ^ (F32.log2Loop n n + 1) ≤
      (0 + 2 ^ (F32.log2Loop n n + 1)) * (0 + 2 ^ (F32.log2Loop n n + 1)) := by
    rw [zero_add]
    exact Nat.le_mul_self _
  have h := F32.isqrtLoop_spec n (F32.log2Loop n n + 1) 0 (Nat.zero_le _) (lt_of_lt_of_le hlt hpow)
  exact Nat.eq_sqrt.mpr h

/-- In the binary32 reading, too, the march goes on only from a sample whose
computed field is at least the hit threshold: of the sampled depths, only the
last can belong to a point inside the sphere. -/
theorem F32.rayMarchSamples_continue (ro rd : F32.Vec4) (n : ℕ) :
    ∀ depth : ℚ, ∀ d ∈ (F32.rayMarchSamples ro rd n depth).dropLast,
      F32.hitEpsilon ≤ F32.sphereSDF (ro + rd * d) 1 := by
  induction n with
  | zero =>
    intro depth d hd
    have : F32.rayMarchSamples ro rd 0 depth = [] := rfl
    rw [this] at hd
    exact absurd hd (List.not_mem_nil d)
  | succ k ih =>
    intro depth d hd
    by_cases hhit : F32.sphereSDF (ro + rd * depth) 1 < F32.hitEpsilon
    · have hs : F32.rayMarchSamples ro rd (k + 1) depth = [depth] := by
        simp only [F32.rayMarchSamples, if_pos hhit]
      rw [hs] at hd
      exact absurd hd (List.not_mem_nil d)
    · by_cases hfar : F32.round (depth + F32.sphereSDF (ro + rd * depth) 1) > 100
      · have hs : F32.rayMarchSamples ro rd (k + 1) depth = [depth] := by
          simp only [F32.rayMarchSamples, if_neg hhit, if_pos hfar]
        rw [hs] at hd
        exact absurd hd (List.not_mem_nil d)
      · have hs : F32.rayMarchSamples ro rd (k + 1) depth =
            depth :: F32.rayMarchSamples ro rd k
              (F32.round (depth + F32.sphereSDF (ro + rd * depth) 1)) := by
          simp only [F32.rayMarchSamples, if_neg hhit, if_neg hfar]
        rw [hs] at hd
        cases hrest : F32.rayMarchSamples ro rd k
            (F32.round (depth + F32.sphereSDF (ro + rd * depth) 1)) with
        | nil =>
          rw [hrest] at hd
          exact absurd hd (List.not_mem_nil d)
        | cons a rest =>
          rw [hrest, List.dropLast_cons₂] at hd
          rcases List.mem_cons.mp hd with h1 | h2
          · rw [h1]; exact not_lt.mp hhit
          · exact ih _ d (by rw [hrest]; exact h2)

/-! ## C16: a returned hit is within the threshold -/

theorem rayMarchLoop_result_within (ro rd : Vec4) (n : ℕ) :
    ∀ depth : ℝ, rayMarchLoop ro rd n depth ≠ -1 →
      sphereSDF (ro + rd * rayMarchLoop ro rd n depth) 1 < 0.001 := by
  induction n with
  | zero => intro depth h; exact absurd rfl h
  | succ k ih =>
    intro depth h
    by_cases hhit : sphereSDF (ro + rd * depth) 1 < 0.001
    · rw [rayMarchLoop_hit ro rd k depth hhit]; exact hhit
    · by_cases hfar : depth + sphereSDF (ro + rd * depth) 1 > 100
      · exact absurd (rayMarchLoop_far ro rd k depth hhit hfar) h
      · rw [rayMarchLoop_step ro rd k depth hhit hfar] at h ⊢
        exact ih _ h

/-- A returned hit distance is one of the sampled depths. -/
theorem rayMarchLoop_mem_samples (ro rd : Vec4) (n : ℕ) :
    ∀ depth : ℝ, rayMarchLoop ro rd n depth ≠ -1 →
      rayMarchLoop ro rd n depth ∈ rayMarchSamples ro rd n depth := by
  induction n with
  | zero => intro depth h; exact absurd rfl h
  | succ k ih =>
    intro depth h
    by_cases hhit : sphereSDF (ro + rd * depth) 1 < 0.001
    · rw [rayMarchLoop_hit ro rd k depth hhit, rayMarchSamples_hit ro rd k depth hhit]
      exact List.mem_singleton.mpr rfl
    · by_cases hfar : depth + sphereSDF (ro + rd * depth) 1 > 100
      · exact absurd (rayMarchLoop_far ro rd k depth hhit hfar) h
      · rw [rayMarchLoop_step ro rd k depth hhit hfar] at h ⊢
        rw [rayMarchSamples_step ro rd k depth hhit hfar]
        exact List.mem_cons_of_mem _ (ih _ h)

/-- C16: a hit distance returned by `rayMarch` (a value other than the
sentinel) is the depth of a point within the hit threshold of the surface;
hence a ray whose points at depths in `[0, 100]` all stay at least 0.001 from
the surface returns the sentinel. -/
theorem hit_within_epsilon (ro rd : Vec4) :
    (rayMarch ro rd ≠ -1 → sphereSDF (ro + rd * rayMarch ro rd) 1 < 0.001) ∧
      ((∀ d : ℝ, 0 ≤ d → d ≤ 100 → 0.001 ≤ sphereSDF (ro + rd * d) 1) →
        rayMarch ro rd = -1) := by
  constructor
  · exact rayMarchLoop_result_within ro rd 100 0
  · intro hclear
    by_contra hne
    have hlt := rayMarchLoop_result_within ro rd 100 0 hne
    rcases rayMarchLoop_range ro rd 100 0 le_rfl (by norm_num) with hm | ⟨h0, h100⟩
    · exact hne hm
    · exact absurd hlt (not_lt.mpr (hclear _ h0 h100))

/-- Witness of C16: the centre ray returns 4 and its hit point is within the
threshold; the corner ray stays clear of the surface and returns the sentinel. -/
theorem hit_within_epsilon_witness :
    rayMarch cameraPos (rayDir 400 300) ≠ -1 ∧
      sphereSDF (cameraPos + rayDir 400 300 * rayMarch cameraPos (rayDir 400 300)) 1 < 0.001 ∧
      (∀ d : ℝ, 0 ≤ d → d ≤ 100 →
        0.001 ≤ sphereSDF (cameraPos + Vec4.normalize ⟨0, -2 / 3, -1 / 2, 1⟩ * d) 1) ∧
      rayMarch cameraPos (Vec4.normalize ⟨0, -2 / 3, -1 / 2, 1⟩) = -1 := by
  have h1 : rayMarch cameraPos (rayDir 400 300) ≠ -1 := by rw [rayMarch_centre]; norm_num
  have h2 : ∀ d : ℝ, 0 ≤ d → d ≤ 100 →
      0.001 ≤ sphereSDF (cameraPos + Vec4.normalize ⟨0, -2 / 3, -1 / 2, 1⟩ * d) 1 :=
    fun d _ _ => corner_ray_clear d
  exact ⟨h1, (hit_within_epsilon cameraPos (rayDir 400 300)).1 h1, h2,
    (hit_within_epsilon cameraPos (Vec4.normalize ⟨0, -2 / 3, -1 / 2, 1⟩)).2 h2⟩

/-! ## C14: the layout of the image text -/

theorem flatten_map_range_length {α : Type} (f : ℕ → List α) (n : ℕ)
    (hlen : ∀ i, (f i).length = n) (m : ℕ) :
    (((List.range m).map f).flatten).length = m * n := by
  induction m with
  | zero => simp
  | succ k ih =>
    rw [List.range_succ, List.map_append, List.flatten_append, List.length_append, ih]
    simp only [List.map_cons, List.map_nil, List.flatten_cons, List.flatten_nil,
      List.append_nil, hlen]
    ring

/-- Row-major indexing of a list built by an outer loop of `m` rounds, each
appending the `n` elements of an inner loop. -/
theorem flatten_map_range_getElem? {α : Type} (f : ℕ → List α) (n : ℕ)
    (hlen : ∀ i, (f i).length = n) (m i j : ℕ) (hi : i < m) (hj : j < n) :
    (((List.range m).map f).flatten)[i * n + j]? = (f i)[j]? := by
  induction m with
  | zero => omega
  | succ k ih =>
    rw [List.range_succ, List.map_append, List.flatten_append]
    simp only [List.map_cons, List.map_nil, List.flatten_cons, List.flatten_nil,
      List.append_nil]
    have hL := flatten_map_range_length f n hlen k
    by_cases hik : i < k
    · have hlt : i * n + j < (((List.range k).map f).flatten).length := by
        rw [hL]
        calc i * n + j < i * n + n := by omega
          _ = (i + 1) * n := by ring
          _ ≤ k * n := Nat.mul_le_mul_right n hik
      rw [List.getElem?_append_left hlt, ih hik]
    · have hik2 : i = k := by omega
      subst hik2
      rw [List.getElem?_append_right (by rw [hL]; omega), hL]
      congr 1
      omega

theorem digitChar_ne_newline (d : ℕ) (hd : d < 10) : Nat.digitChar d ≠ '\n' := by
  interval_cases d <;> decide

theorem toDigitsCore_no_newline (f : ℕ) :
    ∀ (n : ℕ) (acc : List Char), '\n' ∉ acc → '\n' ∉ Nat.toDigitsCore 10 f n acc := by
  induction f with
  | zero => intro n acc h; simpa [Nat.toDigitsCore] using h
  | succ k ih =>
    intro n acc h
    simp only [Nat.toDigitsCore]
    have hcons : '\n' ∉ Nat.digitChar (n % 10) :: acc := by
      intro hm
      rcases List.mem_cons.mp hm with h1 | h2
      · exact digitChar_ne_newline _ (Nat.mod_lt n (by norm_num)) h1.symm
      · exact h h2
    split
    · exact hcons
    · exact ih _ _ hcons

theorem natRepr_no_newline (n : ℕ) : '\n' ∉ (Nat.repr n).data := by
  simp only [Nat.repr, Nat.toDigits, List.asString]
  exact toDigitsCore_no_newline _ _ _ (List.not_mem_nil _)

theorem intToString_no_newline (c : ℤ) : '\n' ∉ (toString c).data := by
  cases c with
  | ofNat n => exact natRepr_no_newline n
  | negSucc n =>
    show '\n' ∉ ("-" ++ Nat.repr (n + 1)).data
    rw [String.data_append]
    intro hm
    rcases List.mem_append.mp hm with h1 | h2
    · revert h1; decide
    · exact natRepr_no_newline _ h2

/-- A pixel line is one line: text without a line break, then a line break. -/
theorem tripletLine_is_line (c : ℤ × ℤ × ℤ) :
    ∃ s : String, tripletLine c = s ++ "\n" ∧ '\n' ∉ s.data := by
  refine ⟨toString c.1 ++ " " ++ toString c.2.1 ++ " " ++ toString c.2.2, rfl, ?_⟩
  simp only [String.data_append, List.mem_append, not_or]
  refine ⟨⟨⟨⟨intToString_no_newline _, by decide⟩, intToString_no_newline _⟩, by decide⟩,
    intToString_no_newline _⟩

theorem rowLines_length (y : ℕ) : (rowLines y).length = 800 := by
  have hw : width.toNat = 800 := by decide
  simp only [rowLines, List.length_map, List.length_range, hw]

theorem rowLines_getElem? (x y : ℕ) (hx : x < 800) :
    (rowLines y)[x]? = some (pixelLine (x : ℤ) (y : ℤ)) := by
  have hw : width.toNat = 800 := by decide
  simp only [rowLines, hw, List.getElem?_map, List.getElem?_range hx, Option.map_some']

/-- C14: the image text is the header `P3`, `800 600`, `255` followed by the
pixel lines; there are `800 · 600 = 480000` of them, in row-major order: the
line at index `y · 800 + x` is the line of pixel `(x, y)`; and each of them is
one line of text, ended by its only line break. -/
theorem image_layout :
    header = "P3\n800 600\n255\n" ∧
      imageText = "P3\n800 600\n255\n" ++ String.join pixelLines ∧
      pixelLines.length = 480000 ∧
      (∀ x y : ℕ, x < 800 → y < 600 →
        pixelLines[y * 800 + x]? = some (pixelLine (x : ℤ) (y : ℤ))) ∧
      ∀ x y : ℤ, ∃ s : String, pixelLine x y = s ++ "\n" ∧ '\n' ∉ s.data := by
  have hh : header = "P3\n800 600\n255\n" := by decide
  have hH : height.toNat = 600 := by decide
  refine ⟨hh, ?_, ?_, ?_, ?_⟩
  · rw [imageText, hh]
  · rw [pixelLines, hH, flatten_map_range_length rowLines 800 rowLines_length]
  · intro x y hx hy
    rw [pixelLines, hH, flatten_map_range_getElem? rowLines 800 rowLines_length 600 y x hy hx,
      rowLines_getElem? x y hx]
  · intro x y
    rw [pixelLine_eq_tripletLine]
    exact tripletLine_is_line _

/-! ## C18: the checker selection against its specification -/

theorem sphere_u_range (h : Vec4) : 0 ≤ sphere_u h ∧ sphere_u h ≤ 1 := by
  have hpi := Real.pi_pos
  have h1 := Complex.neg_pi_lt_arg (⟨h.x, h.y⟩ : ℂ)
  have h2 := Complex.arg_le_pi (⟨h.x, h.y⟩ : ℂ)
  have h20 : (2.0 : ℝ) = 2 := by norm_num
  have h05 : (0.5 : ℝ) = 1 / 2 := by norm_num
  simp only [sphere_u, atan2, h20, h05]
  generalize Complex.arg (⟨h.x, h.y⟩ : ℂ) = a at h1 h2
  have hlo : -(1 / 2) ≤ a / (2 * Real.pi) := by
    rw [le_div_iff₀ (by positivity)]; linarith
  have hhi : a / (2 * Real.pi) ≤ 1 / 2 := by
    rw [div_le_iff₀ (by positivity)]; linarith
  constructor <;> linarith

theorem sphere_v_range (h : Vec4) : 0 ≤ sphere_v h ∧ sphere_v h ≤ 1 := by
  have hpi := Real.pi_pos
  have h1 := Real.neg_pi_div_two_le_arcsin (h.z / radius3 h)
  have h2 := Real.arcsin_le_pi_div_two (h.z / radius3 h)
  have h05 : (0.5 : ℝ) = 1 / 2 := by norm_num
  simp only [sphere_v, h05]
  generalize Real.arcsin (h.z / radius3 h) = a at h1 h2
  have hlo : -(1 / 2) ≤ a / Real.pi := by
    rw [le_div_iff₀ hpi]; linarith
  have hhi : a / Real.pi ≤ 1 / 2 := by
    rw [div_le_iff₀ hpi]; linarith
  constructor <;> linarith

/-- For non-negative texture coordinates the code's selection is the specified one. -/
theorem baseColor_eq_spec (u v : ℝ) (hu : 0 ≤ u) (hv : 0 ≤ v) :
    baseColor u v = specBaseColor u v := by
  rw [baseColor_of_nonneg u v hu hv]; rfl

/-- C18: at a hit point of 3D radius `r > 0` the texture coordinates lie in
`[0, 1]`, so the truncations are floors, the remainder is not negative, and the
code's checker colour is the specified one: 40 when
`floor(8u) + floor(8v)` is even, 220 when it is odd. -/
theorem checker_refines_spec (h : Vec4) (_hr : 0 < radius3 h) :
    (0 ≤ sphere_u h ∧ sphere_u h ≤ 1) ∧ (0 ≤ sphere_v h ∧ sphere_v h ≤ 1) ∧
      toInt (sphere_u h * 8) = ⌊sphere_u h * 8⌋ ∧ toInt (sphere_v h * 8) = ⌊sphere_v h * 8⌋ ∧
      0 ≤ (toInt (sphere_u h * 8) + toInt (sphere_v h * 8)).tmod 2 ∧
      baseColor (sphere_u h) (sphere_v h) = specBaseColor (sphere_u h) (sphere_v h) ∧
      (baseColor (sphere_u h) (sphere_v h) = 40 ↔
        (⌊sphere_u h * 8⌋ + ⌊sphere_v h * 8⌋) % 2 = 0) ∧
      (baseColor (sphere_u h) (sphere_v h) = 220 ↔
        (⌊sphere_u h * 8⌋ + ⌊sphere_v h * 8⌋) % 2 = 1) := by
  have hu := sphere_u_range h
  have hv := sphere_v_range h
  have hu8 : 0 ≤ sphere_u h * 8 := by linarith [hu.1]
  have hv8 : 0 ≤ sphere_v h * 8 := by linarith [hv.1]
  have ha : 0 ≤ ⌊sphere_u h * 8⌋ := Int.floor_nonneg.mpr hu8
  have hb : 0 ≤ ⌊sphere_v h * 8⌋ := Int.floor_nonneg.mpr hv8
  have hspec := baseColor_eq_spec (sphere_u h) (sphere_v h) hu.1 hv.1
  refine ⟨hu, hv, toInt_of_nonneg _ hu8, toInt_of_nonneg _ hv8, ?_, hspec, ?_, ?_⟩
  · rw [toInt_of_nonneg _ hu8, toInt_of_nonneg _ hv8, Int.tmod_eq_emod (by omega) (by norm_num)]
    omega
  · rw [hspec, specBaseColor]
    by_cases hpar : (⌊sphere_u h * 8⌋ + ⌊sphere_v h * 8⌋) % 2 = 0
    · simp [hpar]
    · simp [hpar]
  · rw [hspec, specBaseColor]
    by_cases hpar : (⌊sphere_u h * 8⌋ + ⌊sphere_v h * 8⌋) % 2 = 0
    · simp [hpar]
    · have h1 : (⌊sphere_u h * 8⌋ + ⌊sphere_v h * 8⌋) % 2 = 1 := by omega
      simp [h1]

/-- Witness of C18 at the hit point `(0, 0, 0, -1)` of the centre pixel, whose
3D radius is 1. -/
theorem checker_refines_spec_witness :
    0 < radius3 ⟨0, 0, 0, -1⟩ ∧
      baseColor (sphere_u ⟨0, 0, 0, -1⟩) (sphere_v ⟨0, 0, 0, -1⟩) =
        specBaseColor (sphere_u ⟨0, 0, 0, -1⟩) (sphere_v ⟨0, 0, 0, -1⟩) := by
  have hr : 0 < radius3 ⟨0, 0, 0, -1⟩ := by
    have : radius3 ⟨0, 0, 0, -1⟩ = 1 := by
      simp only [radius3]; norm_num
    rw [this]; norm_num
  exact ⟨hr, (checker_refines_spec ⟨0, 0, 0, -1⟩ hr).2.2.2.2.2.1⟩

/-! ## C19: the slice `t = 0` -/

theorem rayDir_t (x y : ℤ) : (rayDir x y).t = 0 := by
  simp only [rayDir, Vec4.normalize, zero_div]

theorem camera_ray_t (rd : Vec4) (hrd : rd.t = 0) (d : ℝ) : (cameraPos + rd * d).t = 0 := by
  simp only [cameraPos, Vec4.add_def, Vec4.mul_def, hrd, zero_mul, add_zero]

theorem estimateNormal_t (p : Vec4) (hp : p.t = 0) : (estimateNormal p).t = 0 := by
  have hsym : ((0 : ℝ) + 0.001) * (0 + 0.001) + p.x * p.x + p.y * p.y + p.z * p.z =
      (0 - 0.001) * (0 - 0.001) + p.x * p.x + p.y * p.y + p.z * p.z := by ring
  rw [estimateNormal_eq]
  simp only [Vec4.normalize, hp]
  rw [hsym, sub_self, zero_div]

/-- C19: for every pixel (at any coordinates, those of the raster included) the
`t` component of the ray direction is 0, and so is that of every point of the
ray from the camera, the sampled points and the hit point among them, and that
of the estimated normal there. -/
theorem t_slice (x y : ℤ) :
    (rayDir x y).t = 0 ∧
      (∀ d : ℝ, (cameraPos + rayDir x y * d).t = 0) ∧
      (∀ d ∈ rayMarchSamples cameraPos (rayDir x y) 100 0, (cameraPos + rayDir x y * d).t = 0) ∧
      (cameraPos + rayDir x y * rayMarch cameraPos (rayDir x y)).t = 0 ∧
      (estimateNormal (cameraPos + rayDir x y * rayMarch cameraPos (rayDir x y))).t = 0 := by
  have h := camera_ray_t (rayDir x y) (rayDir_t x y)
  exact ⟨rayDir_t x y, h, fun d _ => h d, h _, estimateNormal_t _ (h _)⟩

/-! ## C17: no division by zero at the pixels -/

theorem gradient_eq (p : Vec4) :
    gradient p =
      ⟨Real.sqrt ((p.t + 0.001) * (p.t + 0.001) + p.x * p.x + p.y * p.y + p.z * p.z) -
          Real.sqrt ((p.t - 0.001) * (p.t - 0.001) + p.x * p.x + p.y * p.y + p.z * p.z),
        Real.sqrt (p.t * p.t + (p.x + 0.001) * (p.x + 0.001) + p.y * p.y + p.z * p.z) -
          Real.sqrt (p.t * p.t + (p.x - 0.001) * (p.x - 0.001) + p.y * p.y + p.z * p.z),
        Real.sqrt (p.t * p.t + p.x * p.x + (p.y + 0.001) * (p.y + 0.001) + p.z * p.z) -
          Real.sqrt (p.t * p.t + p.x * p.x + (p.y - 0.001) * (p.y - 0.001) + p.z * p.z),
        Real.sqrt (p.t * p.t + p.x * p.x + p.y * p.y + (p.z + 0.001) * (p.z + 0.001)) -
          Real.sqrt (p.t * p.t + p.x * p.x + p.y * p.y + (p.z - 0.001) * (p.z - 0.001))⟩ := by
  simp only [gradient, sphereSDF, sub_sub_sub_cancel_right]

theorem sumsq4_nonneg (a b c d : ℝ) : 0 ≤ a * a + b * b + c * c + d * d := by
  linarith [mul_self_nonneg a, mul_self_nonneg b, mul_self_nonneg c, mul_self_nonneg d]

/-- A vanishing central difference forces the two squared lengths to agree. -/
theorem eq_of_diff_sqrt_eq_zero (a1 b1 c1 d1 a2 b2 c2 d2 : ℝ)
    (h : Real.sqrt (a1 * a1 + b1 * b1 + c1 * c1 + d1 * d1) -
      Real.sqrt (a2 * a2 + b2 * b2 + c2 * c2 + d2 * d2) = 0) :
    a1 * a1 + b1 * b1 + c1 * c1 + d1 * d1 = a2 * a2 + b2 * b2 + c2 * c2 + d2 * d2 :=
  (Real.sqrt_inj (sumsq4_nonneg _ _ _ _) (sumsq4_nonneg _ _ _ _)).mp (sub_eq_zero.mp h)

/-- Away from the centre of the sphere the central-difference vector is not zero. -/
theorem gradient_pos (p : Vec4) (hp : p ≠ ⟨0, 0, 0, 0⟩) : 0 < magnitude (gradient p) := by
  apply magnitude_pos_of_ne_zero
  intro hg
  rw [gradient_eq] at hg
  have ht := eq_of_diff_sqrt_eq_zero _ _ _ _ _ _ _ _ (congrArg Vec4.t hg)
  have hx := eq_of_diff_sqrt_eq_zero _ _ _ _ _ _ _ _ (congrArg Vec4.x hg)
  have hy := eq_of_diff_sqrt_eq_zero _ _ _ _ _ _ _ _ (congrArg Vec4.y hg)
  have hz := eq_of_diff_sqrt_eq_zero _ _ _ _ _ _ _ _ (congrArg Vec4.z hg)
  apply hp
  ext
  · show p.t = 0
    linear_combination (250 : ℝ) * ht
  · show p.x = 0
    linear_combination (250 : ℝ) * hx
  · show p.y = 0
    linear_combination (250 : ℝ) * hy
  · show p.z = 0
    linear_combination (250 : ℝ) * hz

theorem rayVector_pos (x y : ℤ) : 0 < magnitude (rayVector x y) := by
  apply magnitude_pos_of_ne_zero
  intro h
  have hz := congrArg Vec4.z h
  simp only [rayVector] at hz
  exact one_ne_zero hz

theorem magnitude_rayDir (x y : ℤ) : magnitude (rayDir x y) = 1 :=
  magnitude_normalize (rayVector x y) (rayVector_pos x y)

/-- A hit point of a unit ray from the camera lies on or outside the sphere. -/
theorem camera_hit_outside (rd : Vec4) (hrd : magnitude rd = 1)
    (hhit : rayMarch cameraPos rd ≠ -1) :
    1 ≤ magnitude (cameraPos + rd * rayMarch cameraPos rd) := by
  have h0 : 0 ≤ sphereSDF (cameraPos + rd * (0 : ℝ)) 1 := by
    rw [add_mul_zero, sphereSDF_camera]; norm_num
  have hmem := rayMarchLoop_mem_samples cameraPos rd 100 0 hhit
  have := rayMarchSamples_outside cameraPos rd hrd 100 0 h0 _ hmem
  rw [sphereSDF_one] at this
  have hr : rayMarchLoop cameraPos rd 100 0 = rayMarch cameraPos rd := rfl
  rw [hr] at this
  linarith

theorem magnitude_zero_vec : magnitude ⟨0, 0, 0, 0⟩ = 0 := by
  rw [magnitude_axis_z, abs_zero]

/-- The light vector `cameraPos - hitPoint` has the length of the march. -/
theorem magnitude_light (rd : Vec4) (hrd : magnitude rd = 1) (d : ℝ) (hd : 0 < d) :
    magnitude (cameraPos - (cameraPos + rd * d)) = d := by
  have hv : cameraPos - (cameraPos + rd * d) = ⟨rd.t * -d, rd.x * -d, rd.y * -d, rd.z * -d⟩ := by
    ext <;> simp only [cameraPos, Vec4.sub_def, Vec4.add_def, Vec4.mul_def] <;> ring
  have hs := sphereSDF_scaled rd (-d) 0
  have hm : ∀ v : Vec4, sphereSDF v 0 = magnitude v - 0 := fun _ => rfl
  rw [hm, sub_zero, sub_zero, abs_neg, abs_of_pos hd, hrd, mul_one] at hs
  rw [hv, hs]

theorem radius3_eq_magnitude (h : Vec4) (ht : h.t = 0) : radius3 h = magnitude h := by
  rw [magnitude_eq, ht, mul_zero, zero_add]
  rfl

/-- C17: for every pixel (at any coordinates, those of the raster included) the
vector `(0, u, v, 1)` has positive magnitude, and at every hit (`dist > 0`) so
have the central-difference vector normalised in `estimateNormal`, the vector
`cameraPos - hitPoint`, and the 3D radius `r`. -/
theorem no_zero_division (x y : ℤ) :
    0 < magnitude (rayVector x y) ∧
      (0 < rayMarch cameraPos (rayDir x y) →
        0 < magnitude (gradient (cameraPos + rayDir x y * rayMarch cameraPos (rayDir x y))) ∧
        0 < magnitude (cameraPos - (cameraPos + rayDir x y * rayMarch cameraPos (rayDir x y))) ∧
        0 < radius3 (cameraPos + rayDir x y * rayMarch cameraPos (rayDir x y))) := by
  refine ⟨rayVector_pos x y, ?_⟩
  intro hd
  have hrd := magnitude_rayDir x y
  have hout := camera_hit_outside (rayDir x y) hrd (by intro h; rw [h] at hd; norm_num at hd)
  refine ⟨?_, ?_, ?_⟩
  · apply gradient_pos
    intro h0
    rw [h0, magnitude_zero_vec] at hout
    norm_num at hout
  · rw [magnitude_light (rayDir x y) hrd _ hd]; exact hd
  · rw [radius3_eq_magnitude _ (camera_ray_t (rayDir x y) (rayDir_t x y) _)]
    linarith

/-- Witness of C17 at the centre pixel, which is a hit. -/
theorem no_zero_division_witness :
    0 < rayMarch cameraPos (rayDir 400 300) ∧
      0 < magnitude (rayVector 400 300) ∧
      0 < magnitude (gradient (cameraPos + rayDir 400 300 * rayMarch cameraPos (rayDir 400 300))) ∧
      0 < magnitude
        (cameraPos - (cameraPos + rayDir 400 300 * rayMarch cameraPos (rayDir 400 300))) ∧
      0 < radius3 (cameraPos + rayDir 400 300 * rayMarch cameraPos (rayDir 400 300)) := by
  have h : 0 < rayMarch cameraPos (rayDir 400 300) := by rw [rayMarch_centre]; norm_num
  exact ⟨h, (no_zero_division 400 300).1, (no_zero_division 400 300).2 h⟩

end GrrayCast
